import Mathlib

/-!
The link store of web_launcher and its HTTP handler.

A shallow embedding of `main.go`: the `Link` record, the data file under
`/data/links.json`, `ensureDataDir`, `loadLinks`, `saveLinks` and `linksHandler`,
together with the part of Go's `encoding/json` the program calls
(`json.Unmarshal`, `json.NewDecoder(..).Decode`, `json.MarshalIndent`,
`json.NewEncoder(..).Encode`) at the Go type `[]Link`.

Modelling conventions.

* Text (request bodies, file contents, Go strings) is a `List Char`: a sequence of
  Unicode scalar values, that is, valid UTF-8.  Every string the program holds comes
  out of the JSON decoder, which coerces its input to valid UTF-8.
* `encoding/json` is embedded as the standard library has it: the scanner grammar with
  its nesting limit, the unquoting of escapes and surrogate pairs, the matching of keys
  up to case, `null` stored into slices, structs and strings, `omitempty`, the escaping
  of strings with HTML escaping on, and `MarshalIndent` as `Marshal` followed by
  `Indent`.  The short escapes for backspace and form feed are those of Go 1.22 and
  later; earlier versions write them as `\u0008` and `\u000c`, which decode alike.
* A Go slice `[]Link` is an `Option (List Link)`: `none` is the nil slice, `some []`
  the empty non-nil slice.  `encoding/json` tells the two apart (`null` against `[]`).
* The data file is an `Option (List Char)` (`none`: the file does not exist).  Failures
  of the operating system are supplied by an environment `Env`, one per operation.
* The mutex of `loadLinks`/`saveLinks` is not modelled: requests are run one at a time.
-/

namespace WebLauncher

/-! ## JSON values and the scanner of `encoding/json` -/

/-- A parsed JSON value.  Numbers keep their source text. -/
inductive JSON where
  | null : JSON
  | bool (b : Bool) : JSON
  | num (raw : List Char) : JSON
  | str (s : List Char) : JSON
  | arr (elems : List JSON) : JSON
  | obj (members : List (List Char × JSON)) : JSON

/-- Ways in which scanning a JSON text stops without a value. -/
inductive ScanError where
  /-- an input character that the grammar does not allow at this place -/
  | invalidChar : ScanError
  /-- the input ends inside a value -/
  | unexpectedEnd : ScanError
  /-- arrays and objects nested deeper than `maxNestingDepth` -/
  | maxDepth : ScanError
  /-- the recursion budget of the model ran out (never with the budget used below) -/
  | outOfFuel : ScanError
  deriving DecidableEq, Repr

/-- Go error values that occur in the program. -/
inductive GoError where
  /-- `*json.SyntaxError` -/
  | syntaxError (e : ScanError) : GoError
  /-- `*json.UnmarshalTypeError`: a JSON value that does not fit the Go type -/
  | unmarshalTypeError : GoError
  /-- `io.EOF`: nothing but white space in the stream -/
  | eof : GoError
  /-- `io.ErrUnexpectedEOF`: the stream ends inside a value -/
  | unexpectedEOF : GoError
  /-- `fs.ErrNotExist` -/
  | notExist : GoError
  /-- any other error of the operating system, by its number -/
  | os (errno : Nat) : GoError
  deriving DecidableEq, Repr

/-- `isSpace` of scanner.go. -/
def isSpace (c : Char) : Bool :=
  c = ' ' || c = '\t' || c = '\r' || c = '\n'

/-- Drop leading white space. -/
def skipSpace : List Char → List Char
  | [] => []
  | c :: rest => if isSpace c then skipSpace rest else c :: rest

/-- Value of a hexadecimal digit, as in `getu4`. -/
def hexVal (c : Char) : Option Nat :=
  if '0' ≤ c ∧ c ≤ '9' then some (c.toNat - '0'.toNat)
  else if 'a' ≤ c ∧ c ≤ 'f' then some (c.toNat - 'a'.toNat + 10)
  else if 'A' ≤ c ∧ c ≤ 'F' then some (c.toNat - 'A'.toNat + 10)
  else none

/-- The 16-bit value of four hexadecimal digits (`getu4` after the `\u`). -/
def getu4 (a b c d : Char) : Option Nat :=
  match hexVal a, hexVal b, hexVal c, hexVal d with
  | some x, some y, some z, some w => some (((x * 16 + y) * 16 + z) * 16 + w)
  | _, _, _, _ => none

/-- `utf16.IsSurrogate`. -/
def isSurrogate (r : Nat) : Bool := 0xd800 ≤ r && r < 0xe000

/-- `unicode.ReplacementChar`. -/
def replacementChar : Char := Char.ofNat 0xfffd

/-- `utf16.DecodeRune`: the code point of a surrogate pair, U+FFFD when it is not one. -/
def utf16DecodeRune (r1 r2 : Nat) : Char :=
  if 0xd800 ≤ r1 ∧ r1 < 0xdc00 ∧ 0xdc00 ≤ r2 ∧ r2 < 0xe000 then
    Char.ofNat ((r1 - 0xd800) * 0x400 + (r2 - 0xdc00) + 0x10000)
  else replacementChar

/-- The low half of a surrogate pair at the head of the input, if there is one
(the second `getu4` of `unquoteBytes`). -/
def peekU4 : List Char → Option (Nat × List Char)
  | '\\' :: 'u' :: a :: b :: c :: d :: rest => (getu4 a b c d).map (fun r => (r, rest))
  | _ => none

/-- The character of a one-letter escape. -/
def simpleEscape (c : Char) : Option Char :=
  if c = '"' then some '"'
  else if c = '\\' then some '\\'
  else if c = '/' then some '/'
  else if c = 'b' then some (Char.ofNat 8)
  else if c = 'f' then some (Char.ofNat 12)
  else if c = 'n' then some '\n'
  else if c = 'r' then some '\r'
  else if c = 't' then some '\t'
  else none

/-- Scan and unquote a string literal whose opening quote has been read: the decoded
text and the input after the closing quote.  `fuel` bounds the number of characters
read; one more than the length of the input is enough. -/
def scanString : Nat → List Char → Except ScanError (List Char × List Char)
  | 0, _ => .error .outOfFuel
  | _ + 1, [] => .error .unexpectedEnd
  | fuel + 1, c :: rest =>
    if c = '"' then .ok ([], rest)
    else if c = '\\' then
      match rest with
      | [] => .error .unexpectedEnd
      | e :: rest1 =>
        if e = 'u' then
          match rest1 with
          | a :: b :: c4 :: d :: rest2 =>
            match getu4 a b c4 d with
            | none => .error .invalidChar
            | some r =>
              if isSurrogate r then
                match peekU4 rest2 with
                | some (r2, rest3) =>
                  if utf16DecodeRune r r2 = replacementChar then
                    (scanString fuel rest2).map (fun p => (replacementChar :: p.1, p.2))
                  else
                    (scanString fuel rest3).map (fun p => (utf16DecodeRune r r2 :: p.1, p.2))
                | none => (scanString fuel rest2).map (fun p => (replacementChar :: p.1, p.2))
              else (scanString fuel rest2).map (fun p => (Char.ofNat r :: p.1, p.2))
          | _ => if rest1.all (fun x => (hexVal x).isSome) then .error .unexpectedEnd
                 else .error .invalidChar
        else
          match simpleEscape e with
          | some ch => (scanString fuel rest1).map (fun p => (ch :: p.1, p.2))
          | none => .error .invalidChar
    else if c.toNat < 0x20 then .error .invalidChar
    else (scanString fuel rest).map (fun p => (c :: p.1, p.2))

/-- Decimal digit. -/
def isDigit (c : Char) : Bool := decide ('0' ≤ c) && decide (c ≤ '9')

/-- The longest prefix of digits, and what follows it. -/
def takeDigits : List Char → List Char × List Char
  | [] => ([], [])
  | c :: rest =>
    if isDigit c then ((takeDigits rest).1.cons c, (takeDigits rest).2) else ([], c :: rest)

/-- The exponent part of a number (`stateE`, `stateESign`, `stateE0`), `acc` being the
text read so far. -/
def scanExponent (acc : List Char) (s : List Char) : Except ScanError (List Char × List Char) :=
  match s with
  | [] => .ok (acc, [])
  | e :: rest =>
    if e = 'e' ∨ e = 'E' then
      match rest with
      | [] => .error .unexpectedEnd
      | g :: rest1 =>
        if g = '+' ∨ g = '-' then
          match takeDigits rest1 with
          | ([], []) => .error .unexpectedEnd
          | ([], _ :: _) => .error .invalidChar
          | (ds, rest2) => .ok (acc ++ e :: g :: ds, rest2)
        else
          match takeDigits rest with
          | ([], _) => .error .invalidChar
          | (ds, rest2) => .ok (acc ++ e :: ds, rest2)
    else .ok (acc, s)

/-- The fraction part of a number (`state0`, `stateDot`, `stateDot0`). -/
def scanFraction (acc : List Char) (s : List Char) : Except ScanError (List Char × List Char) :=
  match s with
  | '.' :: rest =>
    match takeDigits rest with
    | ([], []) => .error .unexpectedEnd
    | ([], _ :: _) => .error .invalidChar
    | (ds, rest1) => scanExponent (acc ++ '.' :: ds) rest1
  | _ => scanExponent acc s

/-- The integer part of a number after an optional sign (`stateNeg`, `state0`, `state1`). -/
def scanInteger (acc : List Char) (s : List Char) : Except ScanError (List Char × List Char) :=
  match s with
  | [] => .error .unexpectedEnd
  | c :: rest =>
    if c = '0' then scanFraction (acc ++ ['0']) rest
    else if isDigit c then scanFraction (acc ++ c :: (takeDigits rest).1) (takeDigits rest).2
    else .error .invalidChar

/-- Scan a number: its source text and the input after it. -/
def scanNumber (s : List Char) : Except ScanError (List Char × List Char) :=
  match s with
  | '-' :: rest => scanInteger ['-'] rest
  | _ => scanInteger [] s

/-- Scan the remaining letters `word` of a literal (`true`, `false`, `null`). -/
def scanLiteral (word : List Char) (s : List Char) : Except ScanError (List Char) :=
  match word, s with
  | [], _ => .ok s
  | _ :: _, [] => .error .unexpectedEnd
  | w :: word1, c :: rest => if c = w then scanLiteral word1 rest else .error .invalidChar

/-- Limit on the nesting of arrays and objects (`maxNestingDepth` of scanner.go). -/
def maxNestingDepth : Nat := 10000

mutual
/-- Scan one JSON value at the head of the input, after optional white space: the value
and the input after it.  `depth` counts the arrays and objects already open. -/
def parseValue : Nat → Nat → List Char → Except ScanError (JSON × List Char)
  | 0, _, _ => .error .outOfFuel
  | fuel + 1, depth, s =>
    match skipSpace s with
    | [] => .error .unexpectedEnd
    | c :: rest =>
      if c = '[' then
        if maxNestingDepth ≤ depth then .error .maxDepth
        else
          match skipSpace rest with
          | [] => .error .unexpectedEnd
          | c1 :: rest1 =>
            if c1 = ']' then .ok (.arr [], rest1)
            else (parseElems fuel (depth + 1) rest).map (fun p => (.arr p.1, p.2))
      else if c = '{' then
        if maxNestingDepth ≤ depth then .error .maxDepth
        else
          match skipSpace rest with
          | [] => .error .unexpectedEnd
          | c1 :: rest1 =>
            if c1 = '}' then .ok (.obj [], rest1)
            else (parseMembers fuel (depth + 1) rest).map (fun p => (.obj p.1, p.2))
      else if c = '"' then
        (scanString (rest.length + 1) rest).map (fun p => (.str p.1, p.2))
      else if c = 't' then (scanLiteral ['r', 'u', 'e'] rest).map (fun r => (.bool true, r))
      else if c = 'f' then (scanLiteral ['a', 'l', 's', 'e'] rest).map (fun r => (.bool false, r))
      else if c = 'n' then (scanLiteral ['u', 'l', 'l'] rest).map (fun r => (.null, r))
      else if c = '-' ∨ isDigit c then (scanNumber (c :: rest)).map (fun p => (.num p.1, p.2))
      else .error .invalidChar
/-- The elements of an array after its opening bracket, up to and including the closing
bracket. -/
def parseElems : Nat → Nat → List Char → Except ScanError (List JSON × List Char)
  | 0, _, _ => .error .outOfFuel
  | fuel + 1, depth, s =>
    match parseValue fuel depth s with
    | .error e => .error e
    | .ok (v, rest) =>
      match skipSpace rest with
      | [] => .error .unexpectedEnd
      | c :: rest1 =>
        if c = ',' then (parseElems fuel depth rest1).map (fun p => (v :: p.1, p.2))
        else if c = ']' then .ok ([v], rest1)
        else .error .invalidChar
/-- The members of an object after its opening brace, up to and including the closing
brace. -/
def parseMembers : Nat → Nat → List Char → Except ScanError (List (List Char × JSON) × List Char)
  | 0, _, _ => .error .outOfFuel
  | fuel + 1, depth, s =>
    match skipSpace s with
    | [] => .error .unexpectedEnd
    | q :: rest =>
      if q = '"' then
        match scanString (rest.length + 1) rest with
        | .error e => .error e
        | .ok (key, rest1) =>
          match skipSpace rest1 with
          | [] => .error .unexpectedEnd
          | c :: rest2 =>
            if c = ':' then
              match parseValue fuel depth rest2 with
              | .error e => .error e
              | .ok (v, rest3) =>
                match skipSpace rest3 with
                | [] => .error .unexpectedEnd
                | c1 :: rest4 =>
                  if c1 = ',' then
                    (parseMembers fuel depth rest4).map (fun p => ((key, v) :: p.1, p.2))
                  else if c1 = '}' then .ok ([(key, v)], rest4)
                  else .error .invalidChar
            else .error .invalidChar
      else .error .invalidChar
end

/-- The first JSON value of a text.  The recursion budget is more than any text of this
length uses up (`parseFirst_fuel` below). -/
def parseFirst (s : List Char) : Except ScanError (JSON × List Char) :=
  parseValue (2 * s.length + 1) 0 s

/-- A whole text as one JSON value, white space allowed around it (`checkValid`). -/
def parseDocument (s : List Char) : Except ScanError JSON :=
  match parseFirst s with
  | .error e => .error e
  | .ok (v, rest) =>
    match skipSpace rest with
    | [] => .ok v
    | _ :: _ => .error .invalidChar

/-! ## The data model and its decoding from JSON -/

/-- A link of the launcher (`type Link struct`).  The JSON keys are `id`, `name`, `url`
and, with `omitempty`, `color`, `description`, `emoji`. -/
structure Link where
  ID : List Char
  Name : List Char
  URL : List Char
  Color : List Char
  Description : List Char
  Emoji : List Char
  deriving DecidableEq, Repr

/-- The zero value of `Link`. -/
def Link.zero : Link := ⟨[], [], [], [], [], []⟩

/-- The fields of `Link`, in declaration order. -/
inductive Field where
  | id | name | url | color | description | emoji
  deriving DecidableEq, Repr

/-- The JSON key of a field (its struct tag). -/
def Field.key : Field → List Char
  | .id => "id".toList
  | .name => "name".toList
  | .url => "url".toList
  | .color => "color".toList
  | .description => "description".toList
  | .emoji => "emoji".toList

/-- All fields, in declaration order. -/
def Field.all : List Field := [.id, .name, .url, .color, .description, .emoji]

/-- Case folding of one character of a key (`foldName`): ASCII letters to upper case, the
long s U+017F to `S` and the Kelvin sign U+212A to `K`.  Folding any other character
never gives an ASCII letter, so it is left as it is. -/
def foldChar (c : Char) : Char :=
  if 'a' ≤ c ∧ c ≤ 'z' then Char.ofNat (c.toNat - 32)
  else if c = Char.ofNat 0x17f then 'S'
  else if c = Char.ofNat 0x212a then 'K'
  else c

/-- The field a JSON key selects: the one whose key is equal, else the first whose key
is equal up to case. -/
def findField (key : List Char) : Option Field :=
  match Field.all.find? (fun f => f.key = key) with
  | some f => some f
  | none => Field.all.find? (fun f => f.key.map foldChar = key.map foldChar)

/-- Store a JSON value into a Go `string` that holds `cur` (`literalStore`): a string is
stored, `null` leaves the field alone, anything else is a type error. -/
def decodeString (cur : List Char) : JSON → Except GoError (List Char)
  | .str s => .ok s
  | .null => .ok cur
  | _ => .error .unmarshalTypeError

/-- Store the value of one object member into the link; unknown keys are skipped. -/
def setField (l : Link) (key : List Char) (v : JSON) : Except GoError Link :=
  match findField key with
  | none => .ok l
  | some .id => (decodeString l.ID v).map (fun s => { l with ID := s })
  | some .name => (decodeString l.Name v).map (fun s => { l with Name := s })
  | some .url => (decodeString l.URL v).map (fun s => { l with URL := s })
  | some .color => (decodeString l.Color v).map (fun s => { l with Color := s })
  | some .description => (decodeString l.Description v).map (fun s => { l with Description := s })
  | some .emoji => (decodeString l.Emoji v).map (fun s => { l with Emoji := s })

/-- Store the members of an object into the link, in the order of the text. -/
def decodeMembers (l : Link) : List (List Char × JSON) → Except GoError Link
  | [] => .ok l
  | (key, v) :: rest =>
    match setField l key v with
    | .error e => .error e
    | .ok l1 => decodeMembers l1 rest

/-- Decode a JSON value into a fresh `Link`: an object fills the fields, `null` leaves
the zero value, anything else is a type error. -/
def decodeLink : JSON → Except GoError Link
  | .obj members => decodeMembers Link.zero members
  | .null => .ok Link.zero
  | _ => .error .unmarshalTypeError

/-- Decode the elements of an array, in order. -/
def decodeElems : List JSON → Except GoError (List Link)
  | [] => .ok []
  | v :: rest =>
    match decodeLink v with
    | .error e => .error e
    | .ok l => (decodeElems rest).map (fun ls => l :: ls)

/-- Decode a JSON value into a nil `[]Link`: an array gives a non-nil slice, `null`
leaves the slice nil, anything else is a type error. -/
def decodeLinks : JSON → Except GoError (Option (List Link))
  | .arr elems => (decodeElems elems).map some
  | .null => .ok none
  | _ => .error .unmarshalTypeError

/-- `json.Unmarshal(data, &links)` with `links` nil: the whole text must be one JSON
value. -/
def jsonUnmarshal (data : List Char) : Except GoError (Option (List Link)) :=
  match parseDocument data with
  | .error e => .error (.syntaxError e)
  | .ok v => decodeLinks v

/-- `json.NewDecoder(body).Decode(&links)` with `links` nil: the first JSON value of the
stream is decoded, what follows it is not read. -/
def jsonDecode (body : List Char) : Except GoError (Option (List Link)) :=
  match skipSpace body with
  | [] => .error .eof
  | _ :: _ =>
    match parseFirst body with
    | .error .unexpectedEnd => .error .unexpectedEOF
    | .error e => .error (.syntaxError e)
    | .ok (v, _) => decodeLinks v

/-! ## Encoding -/

/-- Lower-case hexadecimal digit. -/
def hexDigit (n : Nat) : Char :=
  if n < 10 then Char.ofNat ('0'.toNat + n) else Char.ofNat ('a'.toNat + (n - 10))

/-- One character of a string as the encoder writes it (`appendString` with HTML
escaping, the default of `Marshal` and of `Encoder`). -/
def encodeChar (c : Char) : List Char :=
  if c = '"' ∨ c = '\\' then ['\\', c]
  else if c = Char.ofNat 8 then ['\\', 'b']
  else if c = Char.ofNat 12 then ['\\', 'f']
  else if c = '\n' then ['\\', 'n']
  else if c = '\r' then ['\\', 'r']
  else if c = '\t' then ['\\', 't']
  else if c.toNat < 0x20 ∨ c = '<' ∨ c = '>' ∨ c = '&' then
    ['\\', 'u', '0', '0', hexDigit (c.toNat / 16), hexDigit (c.toNat % 16)]
  else if c = Char.ofNat 0x2028 then ['\\', 'u', '2', '0', '2', '8']
  else if c = Char.ofNat 0x2029 then ['\\', 'u', '2', '0', '2', '9']
  else [c]

/-- The text between the quotes of an encoded string. -/
def encodeChars : List Char → List Char
  | [] => []
  | c :: rest => encodeChar c ++ encodeChars rest

/-- A string as a JSON string literal. -/
def encodeString (s : List Char) : List Char :=
  '"' :: (encodeChars s ++ ['"'])

/-- Value of the field of a link. -/
def Link.get (l : Link) : Field → List Char
  | .id => l.ID
  | .name => l.Name
  | .url => l.URL
  | .color => l.Color
  | .description => l.Description
  | .emoji => l.Emoji

/-- Whether the field carries `omitempty`. -/
def Field.omitEmpty : Field → Bool
  | .id => false
  | .name => false
  | .url => false
  | _ => true

/-- The fields the encoder writes for a link: `id`, `name`, `url`, and each `omitempty`
field with a non-empty value. -/
def Link.written (l : Link) : List Field :=
  Field.all.filter (fun f => !(f.omitEmpty && (l.get f).isEmpty))

/-- Concatenate texts with a separator between them. -/
def joinWith (sep : List Char) : List (List Char) → List Char
  | [] => []
  | [x] => x
  | x :: y :: rest => x ++ sep ++ joinWith sep (y :: rest)

/-- One member of an encoded object, `colon` being `:` or `: `. -/
def encodeMember (colon : List Char) (l : Link) (f : Field) : List Char :=
  encodeString f.key ++ colon ++ encodeString (l.get f)

/-- A link as a compact JSON object. -/
def marshalLink (l : Link) : List Char :=
  '{' :: (joinWith [','] (l.written.map (encodeMember [':'] l)) ++ ['}'])

/-- `json.Marshal(links)`: `null` for the nil slice, else a compact array. -/
def jsonMarshal : Option (List Link) → List Char
  | none => "null".toList
  | some ls => '[' :: (joinWith [','] (ls.map marshalLink) ++ [']'])

/-- `appendNewline` of indent.go with prefix `""` and indent `"  "`: a newline and
`depth` times two spaces. -/
def appendNewline : Nat → List Char
  | 0 => ['\n']
  | depth + 1 => appendNewline depth ++ [' ', ' ']

/-- `appendIndent` of indent.go with prefix `""` and indent `"  "`, on a valid JSON
text.  `inStr` and `esc` follow the scanner through string literals, whose characters
are copied; `need` is `needIndent`. -/
def jsonIndent : Bool → Bool → Bool → Nat → List Char → List Char
  | _, _, _, _, [] => []
  | true, true, need, depth, c :: rest => c :: jsonIndent true false need depth rest
  | true, false, need, depth, c :: rest =>
    if c = '\\' then c :: jsonIndent true true need depth rest
    else if c = '"' then c :: jsonIndent false false need depth rest
    else c :: jsonIndent true false need depth rest
  | false, _, need, depth, c :: rest =>
    if isSpace c then jsonIndent false false need depth rest
    else if c = '}' ∨ c = ']' then
      if need then c :: jsonIndent false false false depth rest
      else appendNewline (depth - 1) ++ c :: jsonIndent false false false (depth - 1) rest
    else
      (if need then appendNewline (depth + 1) else []) ++
        (if c = '{' ∨ c = '[' then
          c :: jsonIndent false false true (if need then depth + 1 else depth) rest
        else if c = ',' then
          c :: (appendNewline (if need then depth + 1 else depth) ++
            jsonIndent false false false (if need then depth + 1 else depth) rest)
        else if c = ':' then
          c :: ' ' :: jsonIndent false false false (if need then depth + 1 else depth) rest
        else if c = '"' then
          c :: jsonIndent true false false (if need then depth + 1 else depth) rest
        else c :: jsonIndent false false false (if need then depth + 1 else depth) rest)

/-- `json.MarshalIndent(links, "", "  ")`: `json.Marshal`, then `appendIndent`.
Encoding a `[]Link` cannot fail. -/
def jsonMarshalIndent (links : Option (List Link)) : Except GoError (List Char) :=
  .ok (jsonIndent false false false 0 (jsonMarshal links))

/-- `json.NewEncoder(w).Encode(links)`: the compact encoding and a newline. -/
def jsonEncode (links : Option (List Link)) : List Char :=
  jsonMarshal links ++ ['\n']

/-! ## The data file and the operating system -/

/-- The store: the content of `/data/links.json`, `none` when the file does not exist. -/
structure FS where
  file : Option (List Char)
  deriving DecidableEq, Repr

/-- What the operating system does to the calls of one operation: for each call the
error number it fails with, if it fails for a reason other than the absence of the data
file.  A failed write leaves `left` in the file. -/
structure Env where
  /-- failure of `os.MkdirAll` -/
  mkdirErr : Option Nat
  /-- failure of `os.Stat` -/
  statErr : Option Nat
  /-- failure of `os.ReadFile` -/
  readErr : Option Nat
  /-- failure of `os.WriteFile`, and the file it leaves behind -/
  writeErr : Option (Nat × Option (List Char))

/-- An operating system on which no call fails. -/
def Env.sound : Env := ⟨none, none, none, none⟩

/-- `os.IsNotExist`. -/
def isNotExist (e : GoError) : Bool := e = .notExist

/-- `os.Stat(dataFile)`: the error, if any. -/
def osStat (env : Env) (fs : FS) : Option GoError :=
  match env.statErr with
  | some n => some (.os n)
  | none =>
    match fs.file with
    | none => some .notExist
    | some _ => none

/-- `os.ReadFile(dataFile)`. -/
def osReadFile (env : Env) (fs : FS) : Except GoError (List Char) :=
  match env.readErr with
  | some n => .error (.os n)
  | none =>
    match fs.file with
    | none => .error .notExist
    | some data => .ok data

/-- `os.WriteFile(dataFile, data, 0644)`: the store afterwards and the error, if any. -/
def osWriteFile (env : Env) (_fs : FS) (data : List Char) : FS × Option GoError :=
  match env.writeErr with
  | some (n, left) => (⟨left⟩, some (.os n))
  | none => (⟨some data⟩, none)

/-- `ensureDataDir`: the store afterwards, and the error `log.Fatalf` ends the process
with, if it does. -/
def ensureDataDir (env : Env) (fs : FS) : FS × Option GoError :=
  match env.mkdirErr with
  | some n => (fs, some (.os n))
  | none =>
    match osStat env fs with
    | some e =>
      if isNotExist e then osWriteFile env fs "[]".toList
      else (fs, none)
    | none => (fs, none)

/-- `loadLinks`. -/
def loadLinks (env : Env) (fs : FS) : Except GoError (Option (List Link)) :=
  match osReadFile env fs with
  | .error e =>
    if isNotExist e then .ok (some [])
    else .error e
  | .ok data => jsonUnmarshal data

/-- `saveLinks`: the store afterwards and the error returned, if any. -/
def saveLinks (env : Env) (fs : FS) (links : Option (List Link)) : FS × Option GoError :=
  match jsonMarshalIndent links with
  | .error e => (fs, some e)
  | .ok data => osWriteFile env fs data

/-! ## The handler of `/api/links` -/

/-- An HTTP request as the handler reads it. -/
structure Request where
  method : String
  body : List Char

/-- What the handler writes to the `http.ResponseWriter`. -/
structure Response where
  status : Nat
  /-- the `Content-Type` header the handler sets, if it sets one -/
  contentType : Option String
  body : List Char
  deriving DecidableEq, Repr

/-- `http.Error(w, msg, code)`: a plain-text response, the message followed by a
newline. -/
def httpError (msg : List Char) (code : Nat) : Response :=
  ⟨code, some "text/plain; charset=utf-8", msg ++ ['\n']⟩

/-- `linksHandler`: the store afterwards and the response.  `errText` is `err.Error()`. -/
def linksHandler (errText : GoError → List Char) (env : Env) (fs : FS) (r : Request) :
    FS × Response :=
  if r.method = "GET" then
    match loadLinks env fs with
    | .error e => (fs, httpError (errText e) 500)
    | .ok links => (fs, ⟨200, some "application/json", jsonEncode links⟩)
  else if r.method = "POST" then
    match jsonDecode r.body with
    | .error e => (fs, httpError (errText e) 400)
    | .ok links =>
      match saveLinks env fs links with
      | (fs1, some e) => (fs1, httpError (errText e) 500)
      | (fs1, none) => (fs1, ⟨200, none, jsonEncode links⟩)
  else (fs, httpError "Method not allowed".toList 405)

/-- Serve a sequence of requests, each with its operating-system behaviour: the store at
the end. -/
def serve (errText : GoError → List Char) (fs : FS) : List (Env × Request) → FS
  | [] => fs
  | (env, r) :: rest => serve errText (linksHandler errText env fs r).1 rest

/-- The responses to a sequence of requests. -/
def responses (errText : GoError → List Char) (fs : FS) : List (Env × Request) → List Response
  | [] => []
  | (env, r) :: rest =>
    (linksHandler errText env fs r).2 ::
      responses errText (linksHandler errText env fs r).1 rest

/-! ## Layouts of an encoded collection

The compact and the indented encoding differ only in the white space after the opening
bracket and each comma (`ws`), after each colon (`ws1`) and before the closing bracket
(`ws3`). -/

/-- A text of white space only. -/
def allSpace (ws : List Char) : Prop := ∀ c ∈ ws, isSpace c = true

/-- The members of an encoded object for the fields `fs`, in a given layout. -/
def membersText (ws ws1 : List Char) (l : Link) (fs : List Field) : List Char :=
  joinWith (',' :: ws) (fs.map (encodeMember (':' :: ws1) l))

/-- An encoded link in a given layout. -/
def objectText (ws ws1 ws3 : List Char) (l : Link) : List Char :=
  '{' :: (ws ++ membersText ws ws1 l l.written ++ (ws3 ++ ['}']))

/-- The JSON members the encoder writes for the fields `fs` of a link. -/
def Link.members (l : Link) (fs : List Field) : List (List Char × JSON) :=
  fs.map (fun f => (f.key, JSON.str (l.get f)))

/-- A link as a JSON value: an object with the keys `id`, `name`, `url` and the keys
of the non-empty `omitempty` fields, each with the field as a string. -/
def Link.toJSON (l : Link) : JSON := .obj (l.members l.written)

/-- The elements of an encoded array of links: `wsA` is the white space before each
element, the other three lay out each object. -/
def elemsText (wsA ws ws1 ws3 : List Char) (ls : List Link) : List Char :=
  joinWith (',' :: wsA) (ls.map (objectText ws ws1 ws3))

/-- An encoded slice of links in a given layout; `wsC` is the white space before the
closing bracket.  The nil slice is `null` and the empty slice `[]` in every layout. -/
def sliceText (wsA wsC ws ws1 ws3 : List Char) : Option (List Link) → List Char
  | none => "null".toList
  | some [] => "[]".toList
  | some (l :: ls) => '[' :: (wsA ++ (elemsText wsA ws ws1 ws3 (l :: ls) ++ (wsC ++ [']'])))

/-- A slice of links as a JSON value: `null` for the nil slice, else the array of its
links. -/
def sliceToJSON : Option (List Link) → JSON
  | none => .null
  | some ls => .arr (ls.map Link.toJSON)

/-- The value of a key in a JSON object, the first if the key occurs twice. -/
def JSON.lookup (key : List Char) : JSON → Option JSON
  | .obj members => (members.find? (fun m => m.1 = key)).map (fun m => m.2)
  | _ => none

/-- Whether a JSON value fits a Go `string`: a string or `null`. -/
def fitsString : JSON → Bool
  | .str _ => true
  | .null => true
  | _ => false

/-- Whether the members of an object fit a `Link`: every member whose key selects a
field holds a string or `null`. -/
def fitsMembers : List (List Char × JSON) → Bool
  | [] => true
  | (key, v) :: rest => ((findField key).isNone || fitsString v) && fitsMembers rest

/-- Whether a JSON value fits a `Link`: `null`, or an object whose members fit. -/
def fitsLink : JSON → Bool
  | .obj members => fitsMembers members
  | .null => true
  | _ => false

/-- Whether a JSON value fits a `[]Link`: `null`, or an array whose elements fit a
`Link`. -/
def fitsLinks : JSON → Bool
  | .arr elems => elems.all fitsLink
  | .null => true
  | _ => false

/-- The bodies the decoder of a POST turns down: no complete JSON value at the start of
the body, or a first value that does not fit a `[]Link`. -/
def bodyRejected (body : List Char) : Bool :=
  match parseFirst body with
  | .error _ => true
  | .ok (v, _) => !fitsLinks v

/-- The indented encoding of a slice: the layout `json.MarshalIndent` gives it with
two spaces of indent (`jsonMarshalIndent_eq` below). -/
def indentText (v : Option (List Link)) : List Char :=
  sliceText "\n  ".toList "\n".toList "\n    ".toList " ".toList "\n  ".toList v

/-- A link with an empty and a non-empty optional field, for the examples. -/
def sampleLink : Link :=
  ⟨"1".toList, "Docs".toList, "https://x".toList, [], "a<b".toList, []⟩

/-- A link as the specification describes its JSON object, written out key by key: the
keys `id`, `name` and `url` always, then `color`, `description` and `emoji`, each only
when its value is not empty.  It names no part of the encoder. -/
def Link.object (l : Link) : JSON :=
  .obj ([("id".toList, JSON.str l.ID), ("name".toList, JSON.str l.Name),
      ("url".toList, JSON.str l.URL)]
    ++ (if l.Color = [] then [] else [("color".toList, JSON.str l.Color)])
    ++ (if l.Description = [] then [] else [("description".toList, JSON.str l.Description)])
    ++ (if l.Emoji = [] then [] else [("emoji".toList, JSON.str l.Emoji)]))

/-- What a reader of a JSON value that stands for a link finds under the six keys: the
strings of `id`, `name` and `url`, present also when empty, and for `color`,
`description` and `emoji` the string when the field is not empty and no such key when
it is. -/
def encodesLink (l : Link) (j : JSON) : Prop :=
  j.lookup "id".toList = some (JSON.str l.ID) ∧
  j.lookup "name".toList = some (JSON.str l.Name) ∧
  j.lookup "url".toList = some (JSON.str l.URL) ∧
  j.lookup "color".toList = (if l.Color = [] then none else some (JSON.str l.Color)) ∧
  j.lookup "description".toList
    = (if l.Description = [] then none else some (JSON.str l.Description)) ∧
  j.lookup "emoji".toList = (if l.Emoji = [] then none else some (JSON.str l.Emoji))

/-- A link with every optional field set, for the examples. -/
def fullLink : Link :=
  ⟨"2".toList, "Mail".toList, "https://m".toList, "#fff".toList, "d".toList, "e".toList⟩

/-- Whether a POST of the sequence is answered 200, that is, has saved its body. -/
def anyPostSaved (errText : GoError → List Char) (fs : FS) : List (Env × Request) → Bool
  | [] => false
  | (env, r) :: rest =>
    (decide (r.method = "POST") && decide ((linksHandler errText env fs r).2.status = 200))
      || anyPostSaved errText (linksHandler errText env fs r).1 rest

/-! ## Strings: what the encoder writes, the scanner reads back -/

theorem scanString_quote (fuel : Nat) (rest : List Char) :
    scanString (fuel + 1) ('"' :: rest) = .ok ([], rest) := by
  simp [scanString]

theorem scanString_literal (fuel : Nat) (c : Char) (rest : List Char)
    (h1 : c ≠ '"') (h2 : c ≠ '\\') (h3 : ¬ c.toNat < 0x20) :
    scanString (fuel + 1) (c :: rest)
      = (scanString fuel rest).map (fun p => (c :: p.1, p.2)) := by
  simp [scanString, h1, h2, h3]

theorem scanString_simple (fuel : Nat) (e ch : Char) (rest : List Char)
    (h1 : e ≠ 'u') (h2 : simpleEscape e = some ch) :
    scanString (fuel + 1) ('\\' :: e :: rest)
      = (scanString fuel rest).map (fun p => (ch :: p.1, p.2)) := by
  simp [scanString, h1, h2]

theorem scanString_u4 (fuel : Nat) (a b c d : Char) (r : Nat) (rest : List Char)
    (h1 : getu4 a b c d = some r) (h2 : isSurrogate r = false) :
    scanString (fuel + 1) ('\\' :: 'u' :: a :: b :: c :: d :: rest)
      = (scanString fuel rest).map (fun p => (Char.ofNat r :: p.1, p.2)) := by
  simp [scanString, h1, h2]

set_option maxRecDepth 100000 in
theorem getu4_hexDigit : ∀ n : Nat, n < 64 →
    getu4 '0' '0' (hexDigit (n / 16)) (hexDigit (n % 16)) = some n := by
  decide

theorem encodeChars_scan (s : List Char) : ∀ (fuel : Nat) (rest : List Char),
    s.length < fuel → scanString fuel (encodeChars s ++ '"' :: rest) = .ok (s, rest) := by
  induction s with
  | nil =>
    intro fuel rest h
    obtain ⟨f, rfl⟩ : ∃ f, fuel = f + 1 := ⟨fuel - 1, by simp at h; omega⟩
    simp [encodeChars, scanString_quote]
  | cons c s ih =>
    intro fuel rest h
    obtain ⟨f, rfl⟩ : ∃ f, fuel = f + 1 := ⟨fuel - 1, by simp at h; omega⟩
    have hf : s.length < f := by simp at h; omega
    have ih1 := ih f rest hf
    simp only [encodeChars, encodeChar]
    split_ifs with h1 h2 h3 h4 h5 h6 h7 h8 h9 <;>
      simp only [List.append_assoc, List.cons_append, List.nil_append]
    · rcases h1 with rfl | rfl
      · rw [scanString_simple f _ '"' _ (by decide) (by decide), ih1]; rfl
      · rw [scanString_simple f _ '\\' _ (by decide) (by decide), ih1]; rfl
    · subst h2
      rw [scanString_simple f _ (Char.ofNat 8) _ (by decide) (by decide), ih1]; rfl
    · subst h3
      rw [scanString_simple f _ (Char.ofNat 12) _ (by decide) (by decide), ih1]; rfl
    · subst h4
      rw [scanString_simple f _ '\n' _ (by decide) (by decide), ih1]; rfl
    · subst h5
      rw [scanString_simple f _ '\r' _ (by decide) (by decide), ih1]; rfl
    · subst h6
      rw [scanString_simple f _ '\t' _ (by decide) (by decide), ih1]; rfl
    · have hn : c.toNat < 64 := by
        rcases h7 with h | rfl | rfl | rfl
        · omega
        · decide
        · decide
        · decide
      have hs : isSurrogate c.toNat = false := by
        simp [isSurrogate]; omega
      rw [scanString_u4 f _ _ _ _ c.toNat _ (getu4_hexDigit _ hn) hs, ih1]
      simp [Except.map, Char.ofNat_toNat]
    · subst h8
      rw [scanString_u4 f _ _ _ _ 0x2028 _ (by decide) (by decide), ih1]; rfl
    · subst h9
      rw [scanString_u4 f _ _ _ _ 0x2029 _ (by decide) (by decide), ih1]; rfl
    · push_neg at h1 h7
      rw [scanString_literal f c _ h1.1 h1.2 (by omega), ih1]; rfl

theorem skipSpace_append (ws : List Char) (hws : allSpace ws) (c : Char) (rest : List Char)
    (hc : isSpace c = false) : skipSpace (ws ++ c :: rest) = c :: rest := by
  induction ws with
  | nil => simp [skipSpace, hc]
  | cons w ws ih =>
    have hw : isSpace w = true := hws w (by simp)
    have hrest : allSpace ws := fun x hx => hws x (by simp [hx])
    simp [skipSpace, hw, ih hrest]

theorem encodeChar_length (c : Char) : 1 ≤ (encodeChar c).length := by
  unfold encodeChar
  split_ifs <;> simp

theorem encodeChars_length (s : List Char) : s.length ≤ (encodeChars s).length := by
  induction s with
  | nil => simp
  | cons c s ih =>
    have := encodeChar_length c
    simp only [encodeChars, List.length_cons, List.length_append]
    omega

theorem scanString_encodeString (s rest : List Char) :
    scanString ((encodeChars s ++ '"' :: rest).length + 1) (encodeChars s ++ '"' :: rest)
      = .ok (s, rest) := by
  apply encodeChars_scan
  have := encodeChars_length s
  simp only [List.length_append, List.length_cons]
  omega

theorem parseValue_string (fuel depth : Nat) (ws : List Char) (hws : allSpace ws)
    (s rest : List Char) :
    parseValue (fuel + 1) depth (ws ++ '"' :: (encodeChars s ++ '"' :: rest))
      = .ok (.str s, rest) := by
  rw [parseValue, skipSpace_append ws hws _ _ (by decide)]
  dsimp only
  rw [if_neg (by decide), if_neg (by decide), if_pos rfl, scanString_encodeString]
  rfl

theorem parseMembers_step (fuel depth : Nat) (ws ws1 : List Char) (hws : allSpace ws)
    (hws1 : allSpace ws1) (k v tail : List Char) :
    parseMembers (fuel + 2) depth
        (ws ++ '"' :: (encodeChars k ++ '"' :: ':' :: (ws1 ++ '"' :: (encodeChars v ++ '"' :: tail))))
      = match skipSpace tail with
        | [] => .error .unexpectedEnd
        | c1 :: rest4 =>
          if c1 = ',' then
            (parseMembers (fuel + 1) depth rest4).map (fun p => ((k, JSON.str v) :: p.1, p.2))
          else if c1 = '}' then .ok ([(k, JSON.str v)], rest4)
          else .error .invalidChar := by
  rw [parseMembers, skipSpace_append ws hws _ _ (by decide)]
  dsimp only
  rw [if_pos rfl, scanString_encodeString]
  dsimp only
  rw [show skipSpace (':' :: (ws1 ++ '"' :: (encodeChars v ++ '"' :: tail)))
        = ':' :: (ws1 ++ '"' :: (encodeChars v ++ '"' :: tail)) from by simp [skipSpace, isSpace]]
  dsimp only
  rw [if_pos rfl, parseValue_string fuel depth ws1 hws1]

theorem skipSpace_cons (c : Char) (rest : List Char) (hc : isSpace c = false) :
    skipSpace (c :: rest) = c :: rest := by
  simp [skipSpace, hc]

theorem membersText_single (ws ws1 : List Char) (l : Link) (f : Field) (tail : List Char) :
    membersText ws ws1 l [f] ++ tail
      = '"' :: (encodeChars f.key ++ '"' :: ':' ::
          (ws1 ++ '"' :: (encodeChars (l.get f) ++ '"' :: tail))) := by
  simp [membersText, joinWith, encodeMember, encodeString]

theorem membersText_cons (ws ws1 : List Char) (l : Link) (f g : Field) (fs : List Field)
    (tail : List Char) :
    membersText ws ws1 l (f :: g :: fs) ++ tail
      = '"' :: (encodeChars f.key ++ '"' :: ':' ::
          (ws1 ++ '"' :: (encodeChars (l.get f) ++ '"' :: ',' ::
            (ws ++ (membersText ws ws1 l (g :: fs) ++ tail))))) := by
  simp [membersText, joinWith, encodeMember, encodeString]

theorem parseMembers_fields (ws ws1 ws3 : List Char) (hws : allSpace ws) (hws1 : allSpace ws1)
    (hws3 : allSpace ws3) (l : Link) (depth : Nat) (rest : List Char) (fs : List Field) :
    fs ≠ [] → ∀ fuel, fs.length < fuel →
    parseMembers fuel depth (ws ++ (membersText ws ws1 l fs ++ (ws3 ++ '}' :: rest)))
      = .ok (l.members fs, rest) := by
  induction fs with
  | nil => intro h; exact absurd rfl h
  | cons f fs ih =>
    intro _ fuel hfuel
    obtain ⟨n, rfl⟩ : ∃ n, fuel = n + 2 := ⟨fuel - 2, by simp at hfuel; omega⟩
    cases fs with
    | nil =>
      rw [membersText_single, parseMembers_step n depth ws ws1 hws hws1,
        skipSpace_append ws3 hws3 _ _ (by decide)]
      rfl
    | cons g fs =>
      have ih1 := ih (by simp) (n + 1) (by simp at hfuel ⊢; omega)
      rw [membersText_cons, parseMembers_step n depth ws ws1 hws hws1,
        skipSpace_cons _ _ (by decide)]
      dsimp only
      rw [if_pos rfl, ih1]
      rfl

theorem written_ne_nil (l : Link) : l.written ≠ [] := by
  simp [Link.written, Field.all, List.filter, Field.omitEmpty]

theorem written_length (l : Link) : l.written.length ≤ 6 := by
  unfold Link.written
  exact (List.length_filter_le _ _).trans (by simp [Field.all])

theorem parseValue_object (ws ws1 ws3 ws0 : List Char) (hws : allSpace ws)
    (hws1 : allSpace ws1) (hws3 : allSpace ws3) (hws0 : allSpace ws0) (l : Link)
    (fuel depth : Nat) (hfuel : 8 ≤ fuel) (hdepth : depth < maxNestingDepth)
    (rest : List Char) :
    parseValue fuel depth (ws0 ++ (objectText ws ws1 ws3 l ++ rest))
      = .ok (l.toJSON, rest) := by
  obtain ⟨n, rfl⟩ : ∃ n, fuel = n + 1 := ⟨fuel - 1, by omega⟩
  have hmem := parseMembers_fields ws ws1 ws3 hws hws1 hws3 l (depth + 1) rest l.written
    (written_ne_nil l) n (by have := written_length l; omega)
  have hne : ∃ c r, skipSpace (ws ++ (membersText ws ws1 l l.written ++ (ws3 ++ '}' :: rest)))
      = c :: r ∧ c ≠ '}' := by
    obtain ⟨f, fs, hfs⟩ := List.exists_cons_of_ne_nil (written_ne_nil l)
    rw [hfs]
    cases fs with
    | nil =>
      rw [membersText_single, skipSpace_append ws hws _ _ (by decide)]
      exact ⟨_, _, rfl, by decide⟩
    | cons g fs =>
      rw [membersText_cons, skipSpace_append ws hws _ _ (by decide)]
      exact ⟨_, _, rfl, by decide⟩
  obtain ⟨c, r, hc, hcne⟩ := hne
  have htext : ws0 ++ (objectText ws ws1 ws3 l ++ rest)
      = ws0 ++ '{' :: (ws ++ (membersText ws ws1 l l.written ++ (ws3 ++ '}' :: rest))) := by
    simp [objectText]
  rw [htext, parseValue, skipSpace_append ws0 hws0 _ _ (by decide)]
  dsimp only
  rw [if_neg (by decide), if_pos rfl, if_neg (by omega), hc]
  dsimp only
  rw [if_neg hcne, hmem]
  rfl

theorem written_head (l : Link) : ∃ fs, l.written = Field.id :: Field.name :: fs := by
  simp [Link.written, Field.all, List.filter, Field.omitEmpty]

theorem objectText_head (ws ws1 ws3 : List Char) (l : Link) (tail : List Char) :
    ∃ r, objectText ws ws1 ws3 l ++ tail = '{' :: r :=
  ⟨(ws ++ membersText ws ws1 l l.written ++ (ws3 ++ ['}'])) ++ tail, rfl⟩

theorem objectText_length (ws ws1 ws3 : List Char) (l : Link) :
    9 ≤ (objectText ws ws1 ws3 l).length := by
  obtain ⟨fs, hfs⟩ := written_head l
  have h := membersText_cons ws ws1 l Field.id Field.name fs []
  rw [List.append_nil] at h
  have hk := encodeChars_length Field.id.key
  have hk2 : Field.id.key.length = 2 := rfl
  simp only [objectText, hfs, h, List.length_cons, List.length_append]
  omega

theorem elemsText_single (wsA ws ws1 ws3 : List Char) (l : Link) (tail : List Char) :
    elemsText wsA ws ws1 ws3 [l] ++ tail = objectText ws ws1 ws3 l ++ tail := by
  simp [elemsText, joinWith]

theorem elemsText_cons (wsA ws ws1 ws3 : List Char) (l m : Link) (ls : List Link)
    (tail : List Char) :
    elemsText wsA ws ws1 ws3 (l :: m :: ls) ++ tail
      = objectText ws ws1 ws3 l ++ ',' :: (wsA ++ (elemsText wsA ws ws1 ws3 (m :: ls) ++ tail)) := by
  simp [elemsText, joinWith]

theorem elemsText_length (wsA ws ws1 ws3 : List Char) (ls : List Link) :
    9 * ls.length ≤ (elemsText wsA ws ws1 ws3 ls).length := by
  induction ls with
  | nil => simp
  | cons l ls ih =>
    cases ls with
    | nil =>
      have := objectText_length ws ws1 ws3 l
      have h := elemsText_single wsA ws ws1 ws3 l []
      simp only [List.append_nil] at h
      rw [h]
      simp only [List.length_cons, List.length_nil]
      omega
    | cons m ls =>
      have h := elemsText_cons wsA ws ws1 ws3 l m ls []
      simp only [List.append_nil] at h
      have := objectText_length ws ws1 ws3 l
      rw [h]
      simp only [List.length_cons, List.length_append] at ih ⊢
      omega

theorem parseElems_links (wsA wsC ws ws1 ws3 : List Char) (hwsA : allSpace wsA)
    (hwsC : allSpace wsC) (hws : allSpace ws) (hws1 : allSpace ws1) (hws3 : allSpace ws3)
    (depth : Nat) (hdepth : depth < maxNestingDepth) (rest : List Char) (ls : List Link) :
    ls ≠ [] → ∀ fuel, ls.length + 8 ≤ fuel →
    parseElems fuel depth (wsA ++ (elemsText wsA ws ws1 ws3 ls ++ (wsC ++ ']' :: rest)))
      = .ok (ls.map Link.toJSON, rest) := by
  induction ls with
  | nil => intro h; exact absurd rfl h
  | cons l ls ih =>
    intro _ fuel hfuel
    obtain ⟨n, rfl⟩ : ∃ n, fuel = n + 1 := ⟨fuel - 1, by omega⟩
    have hn : 8 ≤ n := by simp at hfuel; omega
    cases ls with
    | nil =>
      rw [elemsText_single, parseElems,
        parseValue_object ws ws1 ws3 wsA hws hws1 hws3 hwsA l n depth hn hdepth]
      dsimp only
      rw [skipSpace_append wsC hwsC _ _ (by decide)]
      dsimp only
      rw [if_neg (by decide), if_pos rfl]
      rfl
    | cons m ls =>
      have ih1 := ih (by simp) n (by simp at hfuel ⊢; omega)
      rw [elemsText_cons, parseElems,
        parseValue_object ws ws1 ws3 wsA hws hws1 hws3 hwsA l n depth hn hdepth]
      dsimp only
      rw [skipSpace_cons _ _ (by decide)]
      dsimp only
      rw [if_pos rfl, ih1]
      rfl

theorem parseValue_slice (wsA wsC ws ws1 ws3 : List Char) (hwsA : allSpace wsA)
    (hwsC : allSpace wsC) (hws : allSpace ws) (hws1 : allSpace ws1) (hws3 : allSpace ws3)
    (v : Option (List Link)) (rest : List Char) (fuel : Nat)
    (hfuel : (sliceText wsA wsC ws ws1 ws3 v).length < fuel) :
    parseValue fuel 0 (sliceText wsA wsC ws ws1 ws3 v ++ rest) = .ok (sliceToJSON v, rest) := by
  obtain ⟨n, rfl⟩ : ∃ n, fuel = n + 1 := ⟨fuel - 1, by omega⟩
  match v with
  | none => rfl
  | some [] => rfl
  | some (l :: ls) =>
    have hlen := elemsText_length wsA ws ws1 ws3 (l :: ls)
    have hn : (l :: ls).length + 8 ≤ n := by
      simp only [sliceText, List.length_cons, List.length_append, List.length_nil] at hfuel hlen ⊢
      omega
    have hel := parseElems_links wsA wsC ws ws1 ws3 hwsA hwsC hws hws1 hws3 1 (by decide) rest
      (l :: ls) (by simp) n hn
    have hne : ∃ c r, skipSpace (wsA ++ (elemsText wsA ws ws1 ws3 (l :: ls) ++ (wsC ++ ']' :: rest)))
        = c :: r ∧ c ≠ ']' := by
      cases ls with
      | nil =>
        obtain ⟨r, hr⟩ := objectText_head ws ws1 ws3 l (wsC ++ ']' :: rest)
        rw [elemsText_single, hr, skipSpace_append wsA hwsA _ _ (by decide)]
        exact ⟨_, _, rfl, by decide⟩
      | cons m ls =>
        obtain ⟨r, hr⟩ := objectText_head ws ws1 ws3 l
          (',' :: (wsA ++ (elemsText wsA ws ws1 ws3 (m :: ls) ++ (wsC ++ ']' :: rest))))
        rw [elemsText_cons, hr, skipSpace_append wsA hwsA _ _ (by decide)]
        exact ⟨_, _, rfl, by decide⟩
    obtain ⟨c, r, hc, hcne⟩ := hne
    have htext : sliceText wsA wsC ws ws1 ws3 (some (l :: ls)) ++ rest
        = '[' :: (wsA ++ (elemsText wsA ws ws1 ws3 (l :: ls) ++ (wsC ++ ']' :: rest))) := by
      simp [sliceText]
    rw [htext, parseValue, skipSpace_cons _ _ (by decide)]
    dsimp only
    rw [if_pos rfl, if_neg (by decide), hc]
    dsimp only
    rw [if_neg hcne, hel]
    rfl

theorem decodeLink_toJSON (l : Link) : decodeLink l.toJSON = .ok l := by
  obtain ⟨i, n, u, c, d, e⟩ := l
  cases c <;> cases d <;> cases e <;> rfl

theorem decodeElems_toJSON (ls : List Link) :
    decodeElems (ls.map Link.toJSON) = .ok ls := by
  induction ls with
  | nil => rfl
  | cons l ls ih =>
    simp only [List.map, decodeElems, decodeLink_toJSON, ih]
    rfl

theorem decodeLinks_sliceToJSON (v : Option (List Link)) :
    decodeLinks (sliceToJSON v) = .ok v := by
  cases v with
  | none => rfl
  | some ls =>
    simp only [sliceToJSON, decodeLinks, decodeElems_toJSON]
    rfl

theorem allSpace_nil : allSpace [] := fun _ h => absurd h (List.not_mem_nil _)

theorem allSpace_indent1 : allSpace "\n  ".toList := by
  intro c hc
  simp at hc
  rcases hc with rfl | rfl <;> decide

theorem allSpace_indent2 : allSpace "\n    ".toList := by
  intro c hc
  simp at hc
  rcases hc with rfl | rfl <;> decide

theorem allSpace_newline : allSpace "\n".toList := by
  intro c hc
  simp at hc
  subst hc
  decide

theorem allSpace_blank : allSpace " ".toList := by
  intro c hc
  simp at hc
  subst hc
  decide

theorem marshalLink_eq (l : Link) : marshalLink l = objectText [] [] [] l := by
  simp [marshalLink, objectText, membersText]

theorem jsonMarshal_eq (v : Option (List Link)) :
    jsonMarshal v = sliceText [] [] [] [] [] v := by
  match v with
  | none => rfl
  | some [] => rfl
  | some (l :: ls) =>
    have h : (fun l => marshalLink l) = objectText [] [] [] := funext marshalLink_eq
    simp only [jsonMarshal, sliceText, elemsText, List.nil_append]
    rw [show marshalLink = objectText [] [] [] from h]

theorem jsonIndent_plain (need : Bool) (depth : Nat) (c : Char) (rest : List Char)
    (h1 : c ≠ '\\') (h2 : c ≠ '"') :
    jsonIndent true false need depth (c :: rest) = c :: jsonIndent true false need depth rest := by
  simp [jsonIndent, h1, h2]

theorem jsonIndent_escape (need : Bool) (depth : Nat) (e : Char) (rest : List Char) :
    jsonIndent true false need depth ('\\' :: e :: rest)
      = '\\' :: e :: jsonIndent true false need depth rest := by
  simp [jsonIndent]

theorem jsonIndent_close (need : Bool) (depth : Nat) (rest : List Char) :
    jsonIndent true false need depth ('"' :: rest)
      = '"' :: jsonIndent false false need depth rest := by
  simp [jsonIndent]

theorem hexDigit_plain : ∀ n : Nat, n < 16 → hexDigit n ≠ '\\' ∧ hexDigit n ≠ '"' := by
  decide

theorem jsonIndent_string (s : List Char) : ∀ (need : Bool) (depth : Nat) (rest : List Char),
    jsonIndent true false need depth (encodeChars s ++ '"' :: rest)
      = encodeChars s ++ '"' :: jsonIndent false false need depth rest := by
  induction s with
  | nil => intro need depth rest; simp [encodeChars, jsonIndent_close]
  | cons c s ih =>
    intro need depth rest
    simp only [encodeChars, encodeChar]
    split_ifs with h1 h2 h3 h4 h5 h6 h7 h8 h9 <;>
      simp only [List.append_assoc, List.cons_append, List.nil_append]
    · rw [jsonIndent_escape, ih]
    · rw [jsonIndent_escape, ih]
    · rw [jsonIndent_escape, ih]
    · rw [jsonIndent_escape, ih]
    · rw [jsonIndent_escape, ih]
    · rw [jsonIndent_escape, ih]
    · have hn : c.toNat < 64 := by
        rcases h7 with h | rfl | rfl | rfl
        · omega
        · decide
        · decide
        · decide
      have ha := hexDigit_plain (c.toNat / 16) (by omega)
      have hb := hexDigit_plain (c.toNat % 16) (by omega)
      rw [jsonIndent_escape, jsonIndent_plain _ _ '0' _ (by decide) (by decide),
        jsonIndent_plain _ _ '0' _ (by decide) (by decide),
        jsonIndent_plain _ _ _ _ ha.1 ha.2, jsonIndent_plain _ _ _ _ hb.1 hb.2, ih]
    · rw [jsonIndent_escape, jsonIndent_plain _ _ '2' _ (by decide) (by decide),
        jsonIndent_plain _ _ '0' _ (by decide) (by decide),
        jsonIndent_plain _ _ '2' _ (by decide) (by decide),
        jsonIndent_plain _ _ '8' _ (by decide) (by decide), ih]
    · rw [jsonIndent_escape, jsonIndent_plain _ _ '2' _ (by decide) (by decide),
        jsonIndent_plain _ _ '0' _ (by decide) (by decide),
        jsonIndent_plain _ _ '2' _ (by decide) (by decide),
        jsonIndent_plain _ _ '9' _ (by decide) (by decide), ih]
    · push_neg at h1
      rw [jsonIndent_plain _ _ c _ h1.2 h1.1, ih]

theorem jsonIndent_quote_need (depth : Nat) (rest : List Char) :
    jsonIndent false false true depth ('"' :: rest)
      = appendNewline (depth + 1) ++ '"' :: jsonIndent true false false (depth + 1) rest := by
  simp [jsonIndent, isSpace]

theorem jsonIndent_quote (depth : Nat) (rest : List Char) :
    jsonIndent false false false depth ('"' :: rest)
      = '"' :: jsonIndent true false false depth rest := by
  simp [jsonIndent, isSpace]

theorem jsonIndent_colon (depth : Nat) (rest : List Char) :
    jsonIndent false false false depth (':' :: rest)
      = ':' :: ' ' :: jsonIndent false false false depth rest := by
  simp [jsonIndent, isSpace]

theorem jsonIndent_comma (depth : Nat) (rest : List Char) :
    jsonIndent false false false depth (',' :: rest)
      = ',' :: (appendNewline depth ++ jsonIndent false false false depth rest) := by
  simp [jsonIndent, isSpace]

theorem jsonIndent_endObject (depth : Nat) (rest : List Char) :
    jsonIndent false false false (depth + 1) ('}' :: rest)
      = appendNewline depth ++ '}' :: jsonIndent false false false depth rest := by
  simp [jsonIndent, isSpace]

theorem jsonIndent_endArray (depth : Nat) (rest : List Char) :
    jsonIndent false false false (depth + 1) (']' :: rest)
      = appendNewline depth ++ ']' :: jsonIndent false false false depth rest := by
  simp [jsonIndent, isSpace]

theorem jsonIndent_beginObject_need (depth : Nat) (rest : List Char) :
    jsonIndent false false true depth ('{' :: rest)
      = appendNewline (depth + 1) ++ '{' :: jsonIndent false false true (depth + 1) rest := by
  simp [jsonIndent, isSpace]

theorem jsonIndent_beginObject (depth : Nat) (rest : List Char) :
    jsonIndent false false false depth ('{' :: rest)
      = '{' :: jsonIndent false false true depth rest := by
  simp [jsonIndent, isSpace]

theorem jsonIndent_beginArray (depth : Nat) (rest : List Char) :
    jsonIndent false false false depth ('[' :: rest)
      = '[' :: jsonIndent false false true depth rest := by
  simp [jsonIndent, isSpace]

/-- The members of a compact object at depth 2, indented, up to the closing brace. -/
theorem jsonIndent_members (l : Link) (tail : List Char) (fs : List Field) :
    fs ≠ [] →
    jsonIndent false false false 2 (membersText [] [] l fs ++ '}' :: tail)
      = membersText "\n    ".toList " ".toList l fs ++
          ("\n  ".toList ++ '}' :: jsonIndent false false false 1 tail) := by
  induction fs with
  | nil => intro h; exact absurd rfl h
  | cons f fs ih =>
    intro _
    cases fs with
    | nil =>
      rw [membersText_single, membersText_single]
      simp only [List.nil_append]
      rw [jsonIndent_quote, jsonIndent_string, jsonIndent_colon, jsonIndent_quote,
        jsonIndent_string, jsonIndent_endObject]
      rfl
    | cons g fs =>
      have ih1 := ih (by simp)
      rw [membersText_cons, membersText_cons]
      simp only [List.nil_append]
      rw [jsonIndent_quote, jsonIndent_string, jsonIndent_colon, jsonIndent_quote,
        jsonIndent_string, jsonIndent_comma, ih1]
      rfl

/-- The members of a compact object right after its opening brace at depth 1. -/
theorem jsonIndent_members_first (l : Link) (tail : List Char) (fs : List Field) :
    fs ≠ [] →
    jsonIndent false false true 1 (membersText [] [] l fs ++ '}' :: tail)
      = "\n    ".toList ++ (membersText "\n    ".toList " ".toList l fs ++
          ("\n  ".toList ++ '}' :: jsonIndent false false false 1 tail)) := by
  intro hne
  cases fs with
  | nil => exact absurd rfl hne
  | cons f fs =>
    cases fs with
    | nil =>
      rw [membersText_single, membersText_single]
      simp only [List.nil_append]
      rw [jsonIndent_quote_need, jsonIndent_string, jsonIndent_colon, jsonIndent_quote,
        jsonIndent_string, jsonIndent_endObject]
      rfl
    | cons g fs =>
      have h := jsonIndent_members l tail (g :: fs) (by simp)
      rw [membersText_cons, membersText_cons]
      simp only [List.nil_append]
      rw [jsonIndent_quote_need, jsonIndent_string, jsonIndent_colon, jsonIndent_quote,
        jsonIndent_string, jsonIndent_comma, h]
      rfl

/-- A compact object at depth 1, indented. -/
theorem jsonIndent_object (l : Link) (tail : List Char) :
    jsonIndent false false false 1 (objectText [] [] [] l ++ tail)
      = objectText "\n    ".toList " ".toList "\n  ".toList l
          ++ jsonIndent false false false 1 tail := by
  have hm := jsonIndent_members_first l tail l.written (written_ne_nil l)
  have h1 : objectText [] [] [] l ++ tail
      = '{' :: (membersText [] [] l l.written ++ '}' :: tail) := by
    simp [objectText]
  rw [h1, jsonIndent_beginObject, hm]
  simp [objectText]

/-- The first object of a compact array, right after the opening bracket. -/
theorem jsonIndent_object_first (l : Link) (tail : List Char) :
    jsonIndent false false true 0 (objectText [] [] [] l ++ tail)
      = "\n  ".toList ++ (objectText "\n    ".toList " ".toList "\n  ".toList l
          ++ jsonIndent false false false 1 tail) := by
  have hm := jsonIndent_members_first l tail l.written (written_ne_nil l)
  have h1 : objectText [] [] [] l ++ tail
      = '{' :: (membersText [] [] l l.written ++ '}' :: tail) := by
    simp [objectText]
  rw [h1, jsonIndent_beginObject_need, hm]
  simp [objectText, appendNewline]

/-- The elements of a compact array at depth 1, indented, up to the closing bracket. -/
theorem jsonIndent_elems (ls : List Link) :
    ls ≠ [] →
    jsonIndent false false false 1 (elemsText [] [] [] [] ls ++ [']'])
      = elemsText "\n  ".toList "\n    ".toList " ".toList "\n  ".toList ls
          ++ "\n]".toList := by
  induction ls with
  | nil => intro h; exact absurd rfl h
  | cons l ls ih =>
    intro _
    cases ls with
    | nil =>
      rw [elemsText_single, elemsText_single, jsonIndent_object, jsonIndent_endArray]
      rfl
    | cons m ls =>
      have ih1 := ih (by simp)
      rw [elemsText_cons, elemsText_cons, jsonIndent_object, jsonIndent_comma]
      simp only [List.nil_append]
      rw [ih1]
      rfl

/-- Indenting the compact encoding of a slice gives its indented encoding. -/
theorem jsonIndent_jsonMarshal (v : Option (List Link)) :
    jsonIndent false false false 0 (jsonMarshal v) = indentText v := by
  match v with
  | none => decide
  | some [] => decide
  | some [l] =>
    rw [jsonMarshal_eq]
    simp only [sliceText, indentText, List.nil_append]
    rw [jsonIndent_beginArray, elemsText_single, elemsText_single, jsonIndent_object_first,
      jsonIndent_endArray]
    simp [appendNewline, jsonIndent]
  | some (l :: m :: ls) =>
    have h := jsonIndent_elems (m :: ls) (by simp)
    rw [jsonMarshal_eq]
    simp only [sliceText, indentText, List.nil_append]
    rw [jsonIndent_beginArray, elemsText_cons, elemsText_cons, jsonIndent_object_first,
      jsonIndent_comma]
    simp only [List.nil_append]
    rw [h]
    simp [appendNewline]

theorem jsonMarshalIndent_eq (v : Option (List Link)) :
    jsonMarshalIndent v = .ok (indentText v) := by
  rw [jsonMarshalIndent, jsonIndent_jsonMarshal]

theorem skipSpace_allSpace (ws : List Char) (hws : allSpace ws) : skipSpace ws = [] := by
  induction ws with
  | nil => rfl
  | cons w ws ih =>
    have hw : isSpace w = true := hws w (by simp)
    have hrest : allSpace ws := fun x hx => hws x (by simp [hx])
    simp [skipSpace, hw, ih hrest]

theorem sliceText_head (wsA wsC ws ws1 ws3 : List Char) (v : Option (List Link))
    (rest : List Char) :
    ∃ c r, sliceText wsA wsC ws ws1 ws3 v ++ rest = c :: r ∧ isSpace c = false := by
  match v with
  | none => exact ⟨'n', _, rfl, by decide⟩
  | some [] => exact ⟨'[', _, rfl, by decide⟩
  | some (l :: ls) => exact ⟨'[', _, rfl, by decide⟩

theorem parseFirst_sliceText (wsA wsC ws ws1 ws3 : List Char) (hwsA : allSpace wsA)
    (hwsC : allSpace wsC) (hws : allSpace ws) (hws1 : allSpace ws1) (hws3 : allSpace ws3)
    (v : Option (List Link)) (rest : List Char) :
    parseFirst (sliceText wsA wsC ws ws1 ws3 v ++ rest) = .ok (sliceToJSON v, rest) := by
  unfold parseFirst
  apply parseValue_slice wsA wsC ws ws1 ws3 hwsA hwsC hws hws1 hws3
  simp only [List.length_append]
  omega

theorem jsonDecode_sliceText (wsA wsC ws ws1 ws3 : List Char) (hwsA : allSpace wsA)
    (hwsC : allSpace wsC) (hws : allSpace ws) (hws1 : allSpace ws1) (hws3 : allSpace ws3)
    (v : Option (List Link)) (rest : List Char) :
    jsonDecode (sliceText wsA wsC ws ws1 ws3 v ++ rest) = .ok v := by
  obtain ⟨c, r, hcr, hc⟩ := sliceText_head wsA wsC ws ws1 ws3 v rest
  unfold jsonDecode
  rw [parseFirst_sliceText wsA wsC ws ws1 ws3 hwsA hwsC hws hws1 hws3, hcr,
    skipSpace_cons c r hc]
  exact decodeLinks_sliceToJSON v

theorem parseDocument_sliceText (wsA wsC ws ws1 ws3 : List Char) (hwsA : allSpace wsA)
    (hwsC : allSpace wsC) (hws : allSpace ws) (hws1 : allSpace ws1) (hws3 : allSpace ws3)
    (v : Option (List Link)) (trail : List Char) (htrail : allSpace trail) :
    parseDocument (sliceText wsA wsC ws ws1 ws3 v ++ trail) = .ok (sliceToJSON v) := by
  unfold parseDocument
  rw [parseFirst_sliceText wsA wsC ws ws1 ws3 hwsA hwsC hws hws1 hws3]
  dsimp only
  rw [skipSpace_allSpace trail htrail]

theorem jsonUnmarshal_sliceText (wsA wsC ws ws1 ws3 : List Char) (hwsA : allSpace wsA)
    (hwsC : allSpace wsC) (hws : allSpace ws) (hws1 : allSpace ws1) (hws3 : allSpace ws3)
    (v : Option (List Link)) (trail : List Char) (htrail : allSpace trail) :
    jsonUnmarshal (sliceText wsA wsC ws ws1 ws3 v ++ trail) = .ok v := by
  unfold jsonUnmarshal
  rw [parseDocument_sliceText wsA wsC ws ws1 ws3 hwsA hwsC hws hws1 hws3 v trail htrail]
  exact decodeLinks_sliceToJSON v

/-- The decoder of a POST reads the compact encoding of a slice back. -/
theorem jsonDecode_jsonMarshal (v : Option (List Link)) :
    jsonDecode (jsonMarshal v) = .ok v := by
  have h := jsonDecode_sliceText [] [] [] [] [] allSpace_nil allSpace_nil allSpace_nil
    allSpace_nil allSpace_nil v []
  rwa [List.append_nil, ← jsonMarshal_eq] at h

/-- The body of a successful response is one JSON document that decodes to the slice. -/
theorem jsonUnmarshal_jsonEncode (v : Option (List Link)) :
    jsonUnmarshal (jsonEncode v) = .ok v := by
  have h := jsonUnmarshal_sliceText [] [] [] [] [] allSpace_nil allSpace_nil allSpace_nil
    allSpace_nil allSpace_nil v "\n".toList allSpace_newline
  rwa [← jsonMarshal_eq] at h

theorem parseDocument_jsonEncode (v : Option (List Link)) :
    parseDocument (jsonEncode v) = .ok (sliceToJSON v) := by
  have h := parseDocument_sliceText [] [] [] [] [] allSpace_nil allSpace_nil allSpace_nil
    allSpace_nil allSpace_nil v "\n".toList allSpace_newline
  rwa [← jsonMarshal_eq] at h

theorem jsonDecode_jsonEncode (v : Option (List Link)) :
    jsonDecode (jsonEncode v) = .ok v := by
  have h := jsonDecode_sliceText [] [] [] [] [] allSpace_nil allSpace_nil allSpace_nil
    allSpace_nil allSpace_nil v "\n".toList
  rwa [← jsonMarshal_eq] at h

theorem parseDocument_indentText (v : Option (List Link)) :
    parseDocument (indentText v) = .ok (sliceToJSON v) := by
  have h := parseDocument_sliceText _ _ _ _ _ allSpace_indent1 allSpace_newline
    allSpace_indent2 allSpace_blank allSpace_indent1 v [] allSpace_nil
  rwa [List.append_nil] at h

/-- What `loadLinks` parses out of a file written by `saveLinks` is the slice saved. -/
theorem jsonUnmarshal_indentText (v : Option (List Link)) :
    jsonUnmarshal (indentText v) = .ok v := by
  have h := jsonUnmarshal_sliceText _ _ _ _ _ allSpace_indent1 allSpace_newline
    allSpace_indent2 allSpace_blank allSpace_indent1 v [] allSpace_nil
  rwa [List.append_nil] at h

/-! ## The handler, case by case -/

theorem saveLinks_ok (env : Env) (fs : FS) (v : Option (List Link))
    (hw : env.writeErr = none) :
    saveLinks env fs v = (⟨some (indentText v)⟩, none) := by
  simp [saveLinks, jsonMarshalIndent_eq, osWriteFile, hw]

theorem saveLinks_fail (env : Env) (fs : FS) (v : Option (List Link)) (n : Nat)
    (left : Option (List Char)) (hw : env.writeErr = some (n, left)) :
    saveLinks env fs v = (⟨left⟩, some (.os n)) := by
  simp [saveLinks, jsonMarshalIndent_eq, osWriteFile, hw]

theorem loadLinks_file (env : Env) (data : List Char) (hr : env.readErr = none) :
    loadLinks env ⟨some data⟩ = jsonUnmarshal data := by
  simp [loadLinks, osReadFile, hr]

theorem loadLinks_absent (env : Env) (hr : env.readErr = none) :
    loadLinks env ⟨none⟩ = .ok (some []) := by
  simp [loadLinks, osReadFile, hr, isNotExist]

theorem loadLinks_fail (env : Env) (fs : FS) (n : Nat) (hr : env.readErr = some n) :
    loadLinks env fs = .error (.os n) := by
  simp [loadLinks, osReadFile, hr, isNotExist]

theorem handler_get (errText : GoError → List Char) (env : Env) (fs : FS) (body : List Char) :
    linksHandler errText env fs ⟨"GET", body⟩
      = match loadLinks env fs with
        | .error e => (fs, httpError (errText e) 500)
        | .ok links => (fs, ⟨200, some "application/json", jsonEncode links⟩) := by
  unfold linksHandler
  rw [if_pos rfl]

theorem handler_post (errText : GoError → List Char) (env : Env) (fs : FS) (body : List Char) :
    linksHandler errText env fs ⟨"POST", body⟩
      = match jsonDecode body with
        | .error e => (fs, httpError (errText e) 400)
        | .ok links =>
          match saveLinks env fs links with
          | (fs1, some e) => (fs1, httpError (errText e) 500)
          | (fs1, none) => (fs1, ⟨200, none, jsonEncode links⟩) := by
  unfold linksHandler
  rw [if_neg (show ¬ ("POST" : String) = "GET" by decide), if_pos rfl]

theorem handler_post_ok (errText : GoError → List Char) (env : Env) (fs : FS)
    (body : List Char) (v : Option (List Link)) (hb : jsonDecode body = .ok v)
    (hw : env.writeErr = none) :
    linksHandler errText env fs ⟨"POST", body⟩
      = (⟨some (indentText v)⟩, ⟨200, none, jsonEncode v⟩) := by
  rw [handler_post, hb]
  simp [saveLinks_ok env fs v hw]

theorem handler_get_saved (errText : GoError → List Char) (env : Env) (body : List Char)
    (v : Option (List Link)) (hr : env.readErr = none) :
    linksHandler errText env ⟨some (indentText v)⟩ ⟨"GET", body⟩
      = (⟨some (indentText v)⟩, ⟨200, some "application/json", jsonEncode v⟩) := by
  rw [handler_get, loadLinks_file env _ hr, jsonUnmarshal_indentText]

theorem handler_other (errText : GoError → List Char) (env : Env) (fs : FS) (r : Request)
    (hget : r.method ≠ "GET") (hpost : r.method ≠ "POST") :
    linksHandler errText env fs r = (fs, httpError "Method not allowed".toList 405) := by
  unfold linksHandler
  rw [if_neg hget, if_neg hpost]

theorem ensureDataDir_fresh (env : Env) (hm : env.mkdirErr = none) (hs : env.statErr = none)
    (hw : env.writeErr = none) :
    ensureDataDir env ⟨none⟩ = (⟨some "[]".toList⟩, none) := by
  simp [ensureDataDir, hm, osStat, hs, isNotExist, osWriteFile, hw]

theorem toJSON_lookup (l : Link) (f : Field) :
    l.toJSON.lookup f.key
      = if f.omitEmpty = true ∧ l.get f = [] then none else some (.str (l.get f)) := by
  obtain ⟨i, n, u, c, d, e⟩ := l
  cases c <;> cases d <;> cases e <;> cases f <;> rfl

/-- The object the encoder writes for a link is the one the specification describes. -/
theorem toJSON_eq_object (l : Link) : l.toJSON = l.object := by
  obtain ⟨i, n, u, c, d, e⟩ := l
  cases c <;> cases d <;> cases e <;> rfl

theorem encodesLink_object (l : Link) : encodesLink l l.object := by
  obtain ⟨i, n, u, c, d, e⟩ := l
  cases c <;> cases d <;> cases e <;> exact ⟨rfl, rfl, rfl, rfl, rfl, rfl⟩

theorem map_toJSON_eq (C : List Link) : C.map Link.toJSON = C.map Link.object := by
  induction C with
  | nil => rfl
  | cons l ls ih => simp only [List.map, toJSON_eq_object, ih]

theorem forall₂_encodesLink (C : List Link) :
    List.Forall₂ encodesLink C (C.map Link.object) := by
  induction C with
  | nil => exact List.Forall₂.nil
  | cons l ls ih => exact List.Forall₂.cons (encodesLink_object l) ih

theorem saveLinks_writeErr (env : Env) (fs : FS) (v : Option (List Link))
    (hok : (saveLinks env fs v).2 = none) : env.writeErr = none := by
  cases hw : env.writeErr with
  | none => rfl
  | some p =>
    obtain ⟨n, left⟩ := p
    rw [saveLinks_fail env fs v n left hw] at hok
    cases hok

/-! ## Which bodies the decoder turns down -/

theorem decodeString_of_fits (cur : List Char) (v : JSON) (h : fitsString v = true) :
    ∃ s, decodeString cur v = .ok s := by
  cases v <;> simp [fitsString] at h <;> exact ⟨_, rfl⟩

theorem decodeString_of_not_fits (cur : List Char) (v : JSON) (h : fitsString v = false) :
    decodeString cur v = .error .unmarshalTypeError := by
  cases v <;> simp [fitsString] at h <;> rfl

theorem setField_of_fits (l : Link) (key : List Char) (v : JSON)
    (h : ((findField key).isNone || fitsString v) = true) :
    ∃ l1, setField l key v = .ok l1 := by
  unfold setField
  cases hf : findField key with
  | none => exact ⟨l, rfl⟩
  | some f =>
    rw [hf] at h
    simp at h
    cases f <;> dsimp only
    · obtain ⟨s, hs⟩ := decodeString_of_fits l.ID v h; rw [hs]; exact ⟨_, rfl⟩
    · obtain ⟨s, hs⟩ := decodeString_of_fits l.Name v h; rw [hs]; exact ⟨_, rfl⟩
    · obtain ⟨s, hs⟩ := decodeString_of_fits l.URL v h; rw [hs]; exact ⟨_, rfl⟩
    · obtain ⟨s, hs⟩ := decodeString_of_fits l.Color v h; rw [hs]; exact ⟨_, rfl⟩
    · obtain ⟨s, hs⟩ := decodeString_of_fits l.Description v h; rw [hs]; exact ⟨_, rfl⟩
    · obtain ⟨s, hs⟩ := decodeString_of_fits l.Emoji v h; rw [hs]; exact ⟨_, rfl⟩

theorem setField_of_not_fits (l : Link) (key : List Char) (v : JSON)
    (h : ((findField key).isNone || fitsString v) = false) :
    setField l key v = .error .unmarshalTypeError := by
  unfold setField
  cases hf : findField key with
  | none => rw [hf] at h; simp at h
  | some f =>
    rw [hf] at h
    simp at h
    cases f <;> dsimp only <;> rw [decodeString_of_not_fits _ v h] <;> rfl

theorem decodeMembers_of_fits (members : List (List Char × JSON)) :
    ∀ l : Link, fitsMembers members = true → ∃ l1, decodeMembers l members = .ok l1 := by
  induction members with
  | nil => intro l _; exact ⟨l, rfl⟩
  | cons m rest ih =>
    intro l h
    obtain ⟨key, v⟩ := m
    simp only [fitsMembers, Bool.and_eq_true] at h
    obtain ⟨l1, hl1⟩ := setField_of_fits l key v h.1
    obtain ⟨l2, hl2⟩ := ih l1 h.2
    exact ⟨l2, by simp only [decodeMembers, hl1, hl2]⟩

theorem decodeMembers_of_not_fits (members : List (List Char × JSON)) :
    ∀ l : Link, fitsMembers members = false →
      decodeMembers l members = .error .unmarshalTypeError := by
  induction members with
  | nil => intro l h; simp [fitsMembers] at h
  | cons m rest ih =>
    intro l h
    obtain ⟨key, v⟩ := m
    cases h1 : ((findField key).isNone || fitsString v) with
    | false => simp only [decodeMembers, setField_of_not_fits l key v h1]
    | true =>
      obtain ⟨l1, hl1⟩ := setField_of_fits l key v h1
      simp only [fitsMembers, h1, Bool.true_and] at h
      simp only [decodeMembers, hl1, ih l1 h]

theorem decodeLink_of_fits (v : JSON) (h : fitsLink v = true) :
    ∃ l, decodeLink v = .ok l := by
  cases v <;> simp [fitsLink] at h
  · exact ⟨_, rfl⟩
  · exact decodeMembers_of_fits _ _ h

theorem decodeLink_of_not_fits (v : JSON) (h : fitsLink v = false) :
    decodeLink v = .error .unmarshalTypeError := by
  cases v <;> simp [fitsLink] at h <;> try rfl
  exact decodeMembers_of_not_fits _ _ h

theorem decodeElems_of_fits (elems : List JSON) (h : elems.all fitsLink = true) :
    ∃ ls, decodeElems elems = .ok ls := by
  induction elems with
  | nil => exact ⟨[], rfl⟩
  | cons v rest ih =>
    simp only [List.all_cons, Bool.and_eq_true] at h
    obtain ⟨l, hl⟩ := decodeLink_of_fits v h.1
    obtain ⟨ls, hls⟩ := ih h.2
    exact ⟨l :: ls, by simp only [decodeElems, hl, hls]; rfl⟩

theorem decodeElems_of_not_fits (elems : List JSON) (h : elems.all fitsLink = false) :
    decodeElems elems = .error .unmarshalTypeError := by
  induction elems with
  | nil => simp at h
  | cons v rest ih =>
    cases h1 : fitsLink v with
    | false => simp only [decodeElems, decodeLink_of_not_fits v h1]
    | true =>
      obtain ⟨l, hl⟩ := decodeLink_of_fits v h1
      simp only [List.all_cons, h1, Bool.true_and] at h
      simp only [decodeElems, hl, ih h]
      rfl

/-- A value that fits is decoded. -/
theorem decodeLinks_of_fits (v : JSON) (h : fitsLinks v = true) :
    ∃ links, decodeLinks v = .ok links := by
  cases v <;> simp only [fitsLinks] at h <;> try exact absurd h (by decide)
  · exact ⟨none, rfl⟩
  · obtain ⟨ls, hls⟩ := decodeElems_of_fits _ h
    exact ⟨some ls, by simp only [decodeLinks, hls]; rfl⟩

/-- A value that does not fit is a type error. -/
theorem decodeLinks_of_not_fits (v : JSON) (h : fitsLinks v = false) :
    decodeLinks v = .error .unmarshalTypeError := by
  cases v <;> simp only [fitsLinks] at h <;> try rfl
  · exact absurd h (by decide)
  · simp only [decodeLinks, decodeElems_of_not_fits _ h]
    rfl

theorem parseFirst_of_blank (body : List Char) (h : skipSpace body = []) :
    parseFirst body = .error .unexpectedEnd := by
  unfold parseFirst
  rw [parseValue, h]

/-- A rejected body makes the decoder fail. -/
theorem jsonDecode_of_rejected (body : List Char) (h : bodyRejected body = true) :
    ∃ e, jsonDecode body = .error e := by
  unfold jsonDecode
  cases hs : skipSpace body with
  | nil => exact ⟨_, rfl⟩
  | cons c rest =>
    dsimp only
    unfold bodyRejected at h
    cases hp : parseFirst body with
    | error e => cases e <;> exact ⟨_, rfl⟩
    | ok p =>
      obtain ⟨v, r⟩ := p
      rw [hp] at h
      exact ⟨_, decodeLinks_of_not_fits v (by simpa using h)⟩

/-- A body that is not rejected is decoded. -/
theorem jsonDecode_of_not_rejected (body : List Char) (h : bodyRejected body = false) :
    ∃ links, jsonDecode body = .ok links := by
  unfold bodyRejected at h
  cases hp : parseFirst body with
  | error e => rw [hp] at h; exact absurd h (Bool.noConfusion)
  | ok p =>
    obtain ⟨v, r⟩ := p
    rw [hp] at h
    have hv : fitsLinks v = true := by simpa using h
    unfold jsonDecode
    cases hs : skipSpace body with
    | nil => rw [parseFirst_of_blank body hs] at hp; cases hp
    | cons c rest =>
      dsimp only
      rw [hp]
      exact decodeLinks_of_fits v hv

/-- A POST whose body is not rejected is not answered 400: the rejected bodies are
exactly those answered 400. -/
theorem handler_post_not_rejected (errText : GoError → List Char) (env : Env) (fs : FS)
    (body : List Char) (h : bodyRejected body = false) :
    (linksHandler errText env fs ⟨"POST", body⟩).2.status ≠ 400 := by
  obtain ⟨links, hl⟩ := jsonDecode_of_not_rejected body h
  rw [handler_post, hl]
  dsimp only
  rcases saveLinks env fs links with ⟨fs1, _ | e⟩
  · exact (by decide : (200 : Nat) ≠ 400)
  · exact (by decide : (500 : Nat) ≠ 400)

/-! ## The stored document along a sequence of requests -/

theorem handler_store_cases (errText : GoError → List Char) (env : Env) (fs : FS)
    (r : Request) (hw : env.writeErr = none) :
    ((linksHandler errText env fs r).1 = fs ∧
      (decide (r.method = "POST") && decide ((linksHandler errText env fs r).2.status = 200))
        = false) ∨
    ((decide (r.method = "POST") && decide ((linksHandler errText env fs r).2.status = 200))
        = true ∧
      ∃ v, (linksHandler errText env fs r).1 = ⟨some (indentText v)⟩) := by
  obtain ⟨method, body⟩ := r
  by_cases hget : method = "GET"
  · subst hget
    left
    rw [handler_get]
    cases loadLinks env fs <;> exact ⟨rfl, rfl⟩
  · by_cases hpost : method = "POST"
    · subst hpost
      cases hd : jsonDecode body with
      | error e =>
        left
        rw [handler_post, hd]
        exact ⟨rfl, rfl⟩
      | ok v =>
        right
        rw [handler_post_ok errText env fs body v hd hw]
        exact ⟨rfl, v, rfl⟩
    · left
      rw [handler_other errText env fs ⟨method, body⟩ hget hpost]
      exact ⟨rfl, by simp [hpost]⟩

theorem serve_store_encoded (errText : GoError → List Char) (trace : List (Env × Request)) :
    ∀ fs : FS, (∃ v, fs = ⟨some (indentText v)⟩) →
      (∀ p ∈ trace, p.1.writeErr = none) →
      ∃ v, serve errText fs trace = ⟨some (indentText v)⟩ := by
  induction trace with
  | nil => intro fs h _; exact h
  | cons p rest ih =>
    intro fs h hw
    obtain ⟨env, r⟩ := p
    have hw1 : env.writeErr = none := hw (env, r) (by simp)
    have hw2 : ∀ q ∈ rest, q.1.writeErr = none := fun q hq => hw q (by simp [hq])
    simp only [serve]
    apply ih _ _ hw2
    rcases handler_store_cases errText env fs r hw1 with h1 | h1
    · rw [h1.1]; exact h
    · exact h1.2

theorem serve_store_unchanged (errText : GoError → List Char) (trace : List (Env × Request)) :
    ∀ fs : FS, (∀ p ∈ trace, p.1.writeErr = none) →
      anyPostSaved errText fs trace = false → serve errText fs trace = fs := by
  induction trace with
  | nil => intro fs _ _; rfl
  | cons p rest ih =>
    intro fs hw hno
    obtain ⟨env, r⟩ := p
    have hw1 : env.writeErr = none := hw (env, r) (by simp)
    have hw2 : ∀ q ∈ rest, q.1.writeErr = none := fun q hq => hw q (by simp [hq])
    simp only [anyPostSaved, Bool.or_eq_false_iff] at hno
    have hfs : (linksHandler errText env fs r).1 = fs := by
      rcases handler_store_cases errText env fs r hw1 with h1 | h1
      · exact h1.1
      · rw [h1.1] at hno
        exact absurd hno.1 (by decide)
    simp only [serve]
    rw [hfs] at hno ⊢
    exact ih fs hw2 hno.2

/-! ## The recursion budget is never used up -/

theorem map_ne_outOfFuel {α β : Type} (f : α → β) (x : Except ScanError α)
    (h : x ≠ .error .outOfFuel) : x.map f ≠ .error .outOfFuel := by
  cases x with
  | error e => intro h1; apply h; simpa [Except.map] using h1
  | ok a => intro h1; cases h1

theorem map_eq_ok {α β : Type} (f : α → β) (x : Except ScanError α) (b : β)
    (h : x.map f = .ok b) : ∃ a, x = .ok a ∧ b = f a := by
  cases x with
  | error e => cases h
  | ok a => exact ⟨a, rfl, by cases h; rfl⟩

theorem skipSpace_length (s : List Char) : (skipSpace s).length ≤ s.length := by
  induction s with
  | nil => simp [skipSpace]
  | cons c rest ih =>
    simp only [skipSpace]
    split
    · simp only [List.length_cons]; omega
    · exact le_refl _

theorem peekU4_length (s : List Char) (r : Nat) (rest : List Char)
    (h : peekU4 s = some (r, rest)) : rest.length < s.length := by
  unfold peekU4 at h
  split at h
  · simp only [Option.map_eq_some'] at h
    obtain ⟨_, _, h2⟩ := h
    cases h2
    simp only [List.length_cons]
    omega
  · cases h

theorem scanString_fuel (fuel : Nat) : ∀ s : List Char, s.length < fuel →
    scanString fuel s ≠ .error .outOfFuel ∧
    ∀ p, scanString fuel s = .ok p → p.2.length < s.length := by
  induction fuel with
  | zero => intro s h; omega
  | succ n ih =>
    intro s hlen
    cases s with
    | nil => exact ⟨by simp [scanString], by simp [scanString]⟩
    | cons c rest =>
      have step : ∀ (t : List Char) (ch : Char), t.length < rest.length + 1 →
          (scanString n t).map (fun p => (ch :: p.1, p.2)) ≠ .error .outOfFuel ∧
          ∀ p, (scanString n t).map (fun p => (ch :: p.1, p.2)) = .ok p →
            p.2.length < (c :: rest).length := by
        intro t ch ht
        have hn : t.length < n := by simp only [List.length_cons] at hlen; omega
        refine ⟨map_ne_outOfFuel _ _ (ih t hn).1, ?_⟩
        intro p hp
        obtain ⟨q, hq, rfl⟩ := map_eq_ok _ _ _ hp
        have := (ih t hn).2 q hq
        simp only [List.length_cons]
        omega
      simp only [scanString]
      repeat' split
      all_goals first
        | (refine step _ _ ?_; (try simp only [List.length_cons]); omega)
        | (refine step _ _ ?_
           have := peekU4_length _ _ _ (by assumption)
           simp only [List.length_cons] at *
           omega)
        | (refine ⟨?_, ?_⟩
           · simp
           · intro p hp; cases hp; simp)
        | (refine ⟨?_, ?_⟩ <;> simp)

theorem takeDigits_length (s : List Char) : (takeDigits s).2.length ≤ s.length := by
  induction s with
  | nil => simp [takeDigits]
  | cons c rest ih =>
    simp only [takeDigits]
    split
    · simp only [List.length_cons]; omega
    · exact le_refl _

theorem scanExponent_fuel (acc s : List Char) :
    scanExponent acc s ≠ .error .outOfFuel ∧
    ∀ p, scanExponent acc s = .ok p → p.2.length ≤ s.length := by
  unfold scanExponent
  split
  · exact ⟨by simp, by intro p hp; cases hp; simp⟩
  · rename_i e rest
    split
    · split
      · exact ⟨by simp, by simp⟩
      · rename_i g rest1
        have h1 := takeDigits_length rest1
        have h2 := takeDigits_length (g :: rest1)
        split
        · split
          · exact ⟨by simp, by simp⟩
          · exact ⟨by simp, by simp⟩
          · rename_i ds rest2 _ _ heq
            rw [heq] at h1
            refine ⟨by simp, ?_⟩
            intro p hp
            cases hp
            simp only [List.length_cons] at h1 ⊢
            omega
        · split
          · exact ⟨by simp, by simp⟩
          · rename_i ds rest2 _ heq
            rw [heq] at h2
            refine ⟨by simp, ?_⟩
            intro p hp
            cases hp
            simp only [List.length_cons] at h2 ⊢
            omega
    · exact ⟨by simp, by intro p hp; cases hp; simp⟩

theorem scanFraction_fuel (acc s : List Char) :
    scanFraction acc s ≠ .error .outOfFuel ∧
    ∀ p, scanFraction acc s = .ok p → p.2.length ≤ s.length := by
  unfold scanFraction
  split
  · rename_i rest
    have h1 := takeDigits_length rest
    split
    · exact ⟨by simp, by simp⟩
    · exact ⟨by simp, by simp⟩
    · rename_i ds rest1 _ _ heq
      rw [heq] at h1
      refine ⟨(scanExponent_fuel _ _).1, ?_⟩
      intro p hp
      have := (scanExponent_fuel _ _).2 p hp
      simp only [List.length_cons] at h1 ⊢
      omega
  · exact scanExponent_fuel acc s

theorem scanInteger_fuel (acc s : List Char) :
    scanInteger acc s ≠ .error .outOfFuel ∧
    ∀ p, scanInteger acc s = .ok p → p.2.length < s.length := by
  unfold scanInteger
  split
  · exact ⟨by simp, by simp⟩
  · rename_i c rest
    have h1 := takeDigits_length rest
    split_ifs
    · refine ⟨(scanFraction_fuel _ _).1, ?_⟩
      intro p hp
      have := (scanFraction_fuel _ _).2 p hp
      simp only [List.length_cons]
      omega
    · refine ⟨(scanFraction_fuel _ _).1, ?_⟩
      intro p hp
      have := (scanFraction_fuel _ _).2 p hp
      simp only [List.length_cons]
      omega
    · exact ⟨by simp, by simp⟩

theorem scanNumber_fuel (s : List Char) :
    scanNumber s ≠ .error .outOfFuel ∧
    ∀ p, scanNumber s = .ok p → p.2.length < s.length := by
  unfold scanNumber
  split
  · rename_i rest
    refine ⟨(scanInteger_fuel _ _).1, ?_⟩
    intro p hp
    have := (scanInteger_fuel _ _).2 p hp
    simp only [List.length_cons]
    omega
  · refine ⟨(scanInteger_fuel _ _).1, ?_⟩
    intro p hp
    have := (scanInteger_fuel _ _).2 p hp
    omega

theorem scanLiteral_fuel (word : List Char) : ∀ s : List Char,
    scanLiteral word s ≠ .error .outOfFuel ∧
    ∀ r, scanLiteral word s = .ok r → r.length ≤ s.length := by
  induction word with
  | nil => intro s; exact ⟨by simp [scanLiteral], by intro r hr; simp [scanLiteral] at hr; simp [hr]⟩
  | cons w word1 ih =>
    intro s
    cases s with
    | nil => exact ⟨by simp [scanLiteral], by simp [scanLiteral]⟩
    | cons c rest =>
      simp only [scanLiteral]
      split_ifs
      · refine ⟨(ih rest).1, ?_⟩
        intro r hr
        have := (ih rest).2 r hr
        simp only [List.length_cons]
        omega
      · exact ⟨by simp, by simp⟩

theorem map_fuel {α β : Type} (g : α × List Char → β × List Char)
    (hg : ∀ p, (g p).2 = p.2) (x : Except ScanError (α × List Char)) (k : Nat)
    (hx : x ≠ .error .outOfFuel ∧ ∀ p, x = .ok p → p.2.length < k) :
    x.map g ≠ .error .outOfFuel ∧ ∀ p, x.map g = .ok p → p.2.length < k := by
  refine ⟨map_ne_outOfFuel g x hx.1, ?_⟩
  intro p hp
  obtain ⟨q, hq, rfl⟩ := map_eq_ok g x p hp
  rw [hg]
  exact hx.2 q hq

theorem weaken_fuel {α : Type} (x : Except ScanError (α × List Char)) (k m : Nat)
    (hkm : k ≤ m) (hx : x ≠ .error .outOfFuel ∧ ∀ p, x = .ok p → p.2.length < k) :
    x ≠ .error .outOfFuel ∧ ∀ p, x = .ok p → p.2.length < m :=
  ⟨hx.1, fun p hp => lt_of_lt_of_le (hx.2 p hp) hkm⟩

theorem literal_fuel (v : JSON) (word rest : List Char) (m : Nat) (hm : rest.length < m) :
    (scanLiteral word rest).map (fun r => (v, r)) ≠ .error .outOfFuel ∧
    ∀ p, (scanLiteral word rest).map (fun r => (v, r)) = .ok p → p.2.length < m := by
  refine ⟨map_ne_outOfFuel _ _ (scanLiteral_fuel word rest).1, ?_⟩
  intro p hp
  obtain ⟨q, hq, rfl⟩ := map_eq_ok _ _ p hp
  have := (scanLiteral_fuel word rest).2 q hq
  exact lt_of_le_of_lt this hm

/-- With a budget of twice the length of the input and one more, scanning a value never
stops for lack of budget, and a value that is scanned uses up some input. -/
theorem parse_fuel (n : Nat) :
    (∀ d s, 2 * s.length + 1 ≤ n →
      parseValue n d s ≠ .error .outOfFuel ∧
      ∀ p, parseValue n d s = .ok p → p.2.length < s.length) ∧
    (∀ d s, 2 * s.length + 2 ≤ n →
      parseElems n d s ≠ .error .outOfFuel ∧
      ∀ p, parseElems n d s = .ok p → p.2.length < s.length) ∧
    (∀ d s, 2 * s.length + 2 ≤ n →
      parseMembers n d s ≠ .error .outOfFuel ∧
      ∀ p, parseMembers n d s = .ok p → p.2.length < s.length) := by
  induction n with
  | zero => exact ⟨fun d s h => by omega, fun d s h => by omega, fun d s h => by omega⟩
  | succ n ih =>
    obtain ⟨ihV, ihE, ihM⟩ := ih
    refine ⟨?_, ?_, ?_⟩
    · intro d s hn
      have hsk := skipSpace_length s
      rw [parseValue]
      split
      · exact ⟨by simp, by simp⟩
      · rename_i c rest heq
        rw [heq] at hsk
        simp only [List.length_cons] at hsk
        have hsk2 := skipSpace_length rest
        split_ifs
        · exact ⟨by simp, by simp⟩
        · split
          · exact ⟨by simp, by simp⟩
          · rename_i c1 rest1 heq1
            rw [heq1] at hsk2
            simp only [List.length_cons] at hsk2
            split_ifs
            · exact ⟨by simp, by intro p hp; cases hp; simp only; omega⟩
            · exact map_fuel (fun p => (JSON.arr p.1, p.2)) (fun _ => rfl) _ s.length
                (weaken_fuel _ rest.length s.length (by omega) (ihE (d + 1) rest (by omega)))
        · exact ⟨by simp, by simp⟩
        · split
          · exact ⟨by simp, by simp⟩
          · rename_i c1 rest1 heq1
            rw [heq1] at hsk2
            simp only [List.length_cons] at hsk2
            split_ifs
            · exact ⟨by simp, by intro p hp; cases hp; simp only; omega⟩
            · exact map_fuel (fun p => (JSON.obj p.1, p.2)) (fun _ => rfl) _ s.length
                (weaken_fuel _ rest.length s.length (by omega) (ihM (d + 1) rest (by omega)))
        · exact map_fuel (fun p => (JSON.str p.1, p.2)) (fun _ => rfl) _ s.length
            (weaken_fuel _ rest.length s.length (by omega)
              (scanString_fuel (rest.length + 1) rest (by omega)))
        · exact literal_fuel _ _ rest s.length (by omega)
        · exact literal_fuel _ _ rest s.length (by omega)
        · exact literal_fuel _ _ rest s.length (by omega)
        · refine map_fuel (fun p => (JSON.num p.1, p.2)) (fun _ => rfl)
            (scanNumber (c :: rest)) s.length ⟨(scanNumber_fuel _).1, ?_⟩
          intro p hp
          have := (scanNumber_fuel _).2 p hp
          simp only [List.length_cons] at this
          omega
        · exact ⟨by simp, by simp⟩
    · intro d s hn
      rw [parseElems]
      have hV := ihV d s (by omega)
      split
      · rename_i e heq
        refine ⟨?_, by simp⟩
        intro h
        cases h
        exact hV.1 heq
      · rename_i v rest heq
        have hrest := hV.2 _ heq
        simp only at hrest
        have hsk := skipSpace_length rest
        split
        · exact ⟨by simp, by simp⟩
        · rename_i c rest1 heq1
          rw [heq1] at hsk
          simp only [List.length_cons] at hsk
          split_ifs
          · exact map_fuel (fun p => (v :: p.1, p.2)) (fun _ => rfl) _ s.length
              (weaken_fuel _ rest1.length s.length (by omega) (ihE d rest1 (by omega)))
          · exact ⟨by simp, by intro p hp; cases hp; simp only; omega⟩
          · exact ⟨by simp, by simp⟩
    · intro d s hn
      have hsk := skipSpace_length s
      rw [parseMembers]
      split
      · exact ⟨by simp, by simp⟩
      · rename_i q rest heq
        rw [heq] at hsk
        simp only [List.length_cons] at hsk
        split_ifs
        · have hS := scanString_fuel (rest.length + 1) rest (by omega)
          split
          · rename_i e heqs
            refine ⟨?_, by simp⟩
            intro h
            cases h
            exact hS.1 heqs
          · rename_i key rest1 heqs
            have hr1 := hS.2 _ heqs
            simp only at hr1
            have hsk1 := skipSpace_length rest1
            split
            · exact ⟨by simp, by simp⟩
            · rename_i c rest2 heq2
              rw [heq2] at hsk1
              simp only [List.length_cons] at hsk1
              split_ifs
              · have hV := ihV d rest2 (by omega)
                split
                · rename_i e heqv
                  refine ⟨?_, by simp⟩
                  intro h
                  cases h
                  exact hV.1 heqv
                · rename_i v rest3 heqv
                  have hr3 := hV.2 _ heqv
                  simp only at hr3
                  have hsk3 := skipSpace_length rest3
                  split
                  · exact ⟨by simp, by simp⟩
                  · rename_i c1 rest4 heq4
                    rw [heq4] at hsk3
                    simp only [List.length_cons] at hsk3
                    split_ifs
                    · exact map_fuel (fun p => ((key, v) :: p.1, p.2)) (fun _ => rfl) _
                        s.length
                        (weaken_fuel _ rest4.length s.length (by omega)
                          (ihM d rest4 (by omega)))
                    · exact ⟨by simp, by intro p hp; cases hp; simp only; omega⟩
                    · exact ⟨by simp, by simp⟩
              · exact ⟨by simp, by simp⟩
        · exact ⟨by simp, by simp⟩

/-- Scanning the first value of a body never stops for lack of budget. -/
theorem parseFirst_fuel (body : List Char) : parseFirst body ≠ .error .outOfFuel :=
  ((parse_fuel (2 * body.length + 1)).1 0 body (le_refl _)).1

/-! ## The claims of the specification -/

/-- C1: after a POST whose body is the JSON array encoding of a collection `C`, from any
stored state and with no failure of the write or of the later read, a GET answers 200
with a body that is one JSON document decoding to `C`, element by element and in order;
that document is an array with one object for each link of `C`, in order, in which
`id`, `name` and `url` hold the link's values, and `color`, `description` and `emoji`
are present exactly when the link's value is not empty, then with that value. -/
theorem post_then_get_round_trip (errText : GoError → List Char) (envPost envGet : Env)
    (fs : FS) (C : List Link) (getBody : List Char)
    (hw : envPost.writeErr = none) (hr : envGet.readErr = none) :
    (linksHandler errText envPost fs ⟨"POST", jsonMarshal (some C)⟩).2.status = 200 ∧
    (linksHandler errText envGet
        (linksHandler errText envPost fs ⟨"POST", jsonMarshal (some C)⟩).1
        ⟨"GET", getBody⟩).2.status = 200 ∧
    jsonUnmarshal (linksHandler errText envGet
        (linksHandler errText envPost fs ⟨"POST", jsonMarshal (some C)⟩).1
        ⟨"GET", getBody⟩).2.body = .ok (some C) ∧
    ∃ elems : List JSON,
      parseDocument (linksHandler errText envGet
        (linksHandler errText envPost fs ⟨"POST", jsonMarshal (some C)⟩).1
        ⟨"GET", getBody⟩).2.body = .ok (.arr elems) ∧
      elems = C.map Link.object ∧
      List.Forall₂ encodesLink C elems := by
  rw [handler_post_ok errText envPost fs _ (some C) (jsonDecode_jsonMarshal _) hw,
    handler_get_saved errText envGet getBody (some C) hr]
  refine ⟨rfl, rfl, jsonUnmarshal_jsonEncode _, C.map Link.object, ?_, rfl,
    forall₂_encodesLink C⟩
  rw [← map_toJSON_eq]
  exact parseDocument_jsonEncode (some C)

set_option maxRecDepth 100000 in
theorem post_then_get_round_trip_witness :
    Env.sound.writeErr = none ∧ Env.sound.readErr = none ∧
    jsonUnmarshal (linksHandler (fun _ => []) Env.sound
        (linksHandler (fun _ => []) Env.sound ⟨some "junk".toList⟩
          ⟨"POST", jsonMarshal (some [sampleLink, Link.zero, fullLink])⟩).1
        ⟨"GET", []⟩).2.body = .ok (some [sampleLink, Link.zero, fullLink]) ∧
    (linksHandler (fun _ => []) Env.sound
        (linksHandler (fun _ => []) Env.sound ⟨some "junk".toList⟩
          ⟨"POST", jsonMarshal (some [sampleLink, Link.zero, fullLink])⟩).1
        ⟨"GET", []⟩).2.body
      = ("[\x7b\"id\":\"1\",\"name\":\"Docs\",\"url\":\"https://x\","
          ++ "\"description\":\"a\\u003cb\"\x7d,"
          ++ "\x7b\"id\":\"\",\"name\":\"\",\"url\":\"\"\x7d,"
          ++ "\x7b\"id\":\"2\",\"name\":\"Mail\",\"url\":\"https://m\","
          ++ "\"color\":\"#fff\",\"description\":\"d\",\"emoji\":\"e\"\x7d]\n").toList :=
  ⟨rfl, rfl, (post_then_get_round_trip (fun _ => []) Env.sound Env.sound ⟨some "junk".toList⟩
    [sampleLink, Link.zero, fullLink] [] rfl rfl).2.2.1, by
    rw [handler_post_ok (fun _ => []) Env.sound ⟨some "junk".toList⟩ _
        (some [sampleLink, Link.zero, fullLink]) (jsonDecode_jsonMarshal _) rfl,
      handler_get_saved (fun _ => []) Env.sound [] (some [sampleLink, Link.zero, fullLink]) rfl]
    decide⟩

/-- C2 fails as stated: a POST with body `null` and a POST with a valid array followed
by trailing garbage are both answered 200, and each overwrites the stored file. -/
theorem post_null_or_trailing_garbage_saved :
    linksHandler (fun _ => []) Env.sound ⟨some (indentText (some [sampleLink]))⟩
        ⟨"POST", "null".toList⟩
      = (⟨some "null".toList⟩, ⟨200, none, "null\n".toList⟩) ∧
    linksHandler (fun _ => []) Env.sound ⟨some (indentText (some [sampleLink]))⟩
        ⟨"POST", "[] trailing garbage".toList⟩
      = (⟨some "[]".toList⟩, ⟨200, none, "[]\n".toList⟩) := by
  constructor <;> decide

/-- C2, as the code has it: a POST whose body has no complete JSON value at its start,
or whose first JSON value does not fit a `[]Link` (it is not `null` and not an array of
objects and `null`s whose Link fields are strings or `null`), is answered 400 with the
text of the decoding error, whatever the operating system would do to a write, and the
store is left as it was. -/
theorem post_rejected_body (errText : GoError → List Char) (env : Env) (fs : FS)
    (body : List Char) (h : bodyRejected body = true) :
    ∃ e, jsonDecode body = .error e ∧
      linksHandler errText env fs ⟨"POST", body⟩ = (fs, httpError (errText e) 400) ∧
      (linksHandler errText env fs ⟨"POST", body⟩).2.status = 400 ∧
      (linksHandler errText env fs ⟨"POST", body⟩).2.body = errText e ++ ['\n'] ∧
      (linksHandler errText env fs ⟨"POST", body⟩).1 = fs := by
  obtain ⟨e, he⟩ := jsonDecode_of_rejected body h
  have hh : linksHandler errText env fs ⟨"POST", body⟩ = (fs, httpError (errText e) 400) := by
    rw [handler_post, he]
  refine ⟨e, he, hh, ?_, ?_, ?_⟩ <;> rw [hh] <;> rfl

theorem post_rejected_body_witness :
    bodyRejected "\x7b\"id\":\"1\"\x7d ".toList = true ∧
    ∃ e, jsonDecode "\x7b\"id\":\"1\"\x7d ".toList = .error e ∧
      linksHandler (fun _ => "bad".toList) ⟨none, none, none, some (28, none)⟩
          ⟨some "[]".toList⟩ ⟨"POST", "\x7b\"id\":\"1\"\x7d ".toList⟩
        = (⟨some "[]".toList⟩, httpError ((fun _ => "bad".toList) e) 400) :=
  ⟨by decide,
    (post_rejected_body (fun _ => "bad".toList) ⟨none, none, none, some (28, none)⟩
      ⟨some "[]".toList⟩ "\x7b\"id\":\"1\"\x7d ".toList (by decide)).imp
      (fun _ h => ⟨h.1, h.2.1⟩)⟩

/-- C3 fails as stated: from a fresh store, after `ensureDataDir` and one POST with body
`null`, the data file holds `null`, which is a JSON document but not an array. -/
theorem stored_document_null_after_post :
    (serve (fun _ => []) (ensureDataDir Env.sound ⟨none⟩).1
        [(Env.sound, ⟨"POST", "null".toList⟩)]).file = some "null".toList ∧
    parseDocument "null".toList = .ok JSON.null ∧
    ¬ ∃ elems, parseDocument "null".toList = .ok (JSON.arr elems) := by
  refine ⟨by decide, rfl, ?_⟩
  rintro ⟨elems, h⟩
  have h0 : parseDocument "null".toList = .ok JSON.null := rfl
  rw [h0] at h
  cases h

/-- C3, as the code has it: in every state reached from `ensureDataDir` on a fresh store
by a sequence of requests to `/api/links`, with no failure of the start-up and of any
write, the data file is the indented encoding of a slice `v`: a JSON document that is
`null` (the nil slice, stored by a POST of `null`) or an array of Link-shaped objects,
and that `loadLinks` parses back to `v`; it is `[]` as long as no POST was answered
200. -/
theorem stored_document_invariant (errText : GoError → List Char) (envInit : Env)
    (trace : List (Env × Request)) (hm : envInit.mkdirErr = none)
    (hs : envInit.statErr = none) (hw0 : envInit.writeErr = none)
    (hw : ∀ p ∈ trace, p.1.writeErr = none) :
    (∃ v, (serve errText (ensureDataDir envInit ⟨none⟩).1 trace).file = some (indentText v) ∧
      parseDocument (indentText v) = .ok (sliceToJSON v) ∧
      (sliceToJSON v = .null ∨ ∃ ls : List Link, sliceToJSON v = .arr (ls.map Link.toJSON)) ∧
      jsonUnmarshal (indentText v) = .ok v) ∧
    (anyPostSaved errText (ensureDataDir envInit ⟨none⟩).1 trace = false →
      (serve errText (ensureDataDir envInit ⟨none⟩).1 trace).file = some "[]".toList) := by
  rw [ensureDataDir_fresh envInit hm hs hw0]
  constructor
  · obtain ⟨v, hv⟩ := serve_store_encoded errText trace ⟨some "[]".toList⟩ ⟨some [], rfl⟩ hw
    refine ⟨v, by rw [hv], parseDocument_indentText v, ?_, jsonUnmarshal_indentText v⟩
    cases v with
    | none => exact Or.inl rfl
    | some ls => exact Or.inr ⟨ls, rfl⟩
  · intro hno
    rw [serve_store_unchanged errText trace _ hw hno]

theorem stored_document_invariant_witness :
    Env.sound.mkdirErr = none ∧ Env.sound.statErr = none ∧ Env.sound.writeErr = none ∧
    (∃ v, (serve (fun _ => []) (ensureDataDir Env.sound ⟨none⟩).1
        [(Env.sound, ⟨"POST", "[\x7b\"id\":\"1\"\x7d] x".toList⟩),
          (⟨none, none, some 5, none⟩, ⟨"GET", []⟩),
          (Env.sound, ⟨"PUT", "\x7b".toList⟩)]).file = some (indentText v) ∧
      jsonUnmarshal (indentText v) = .ok v) :=
  ⟨rfl, rfl, rfl,
    (stored_document_invariant (fun _ => []) Env.sound
      [(Env.sound, ⟨"POST", "[\x7b\"id\":\"1\"\x7d] x".toList⟩),
        (⟨none, none, some 5, none⟩, ⟨"GET", []⟩),
        (Env.sound, ⟨"PUT", "\x7b".toList⟩)] rfl rfl rfl
      (by decide)).1.imp (fun _ h => ⟨h.1, h.2.2.2⟩)⟩

/-- C4: with no failure of a write, the store after a POST of the encoding of a
collection is the indented encoding of that collection, whatever was stored before; a
POST of `C1` and then of `C2` leaves the same store and the same answer to a later GET
as the POST of `C2` alone, that answer being `C2`; so posting a collection twice leaves
the same store and the same GET answer as posting it once. -/
theorem post_replaces_store (errText : GoError → List Char) (env1 env2 envGet : Env)
    (fs fs' : FS) (C1 C2 : List Link) (getBody : List Char)
    (hw1 : env1.writeErr = none) (hw2 : env2.writeErr = none)
    (hr : envGet.readErr = none) :
    (linksHandler errText env2 fs ⟨"POST", jsonMarshal (some C2)⟩).1
      = ⟨some (indentText (some C2))⟩ ∧
    (linksHandler errText env2 fs ⟨"POST", jsonMarshal (some C2)⟩).1
      = (linksHandler errText env1 fs' ⟨"POST", jsonMarshal (some C2)⟩).1 ∧
    serve errText fs [(env1, ⟨"POST", jsonMarshal (some C1)⟩),
        (env2, ⟨"POST", jsonMarshal (some C2)⟩)]
      = (linksHandler errText env2 fs ⟨"POST", jsonMarshal (some C2)⟩).1 ∧
    linksHandler errText envGet
        (serve errText fs [(env1, ⟨"POST", jsonMarshal (some C1)⟩),
          (env2, ⟨"POST", jsonMarshal (some C2)⟩)]) ⟨"GET", getBody⟩
      = linksHandler errText envGet
          (linksHandler errText env2 fs ⟨"POST", jsonMarshal (some C2)⟩).1 ⟨"GET", getBody⟩ ∧
    (linksHandler errText envGet
        (serve errText fs [(env1, ⟨"POST", jsonMarshal (some C1)⟩),
          (env2, ⟨"POST", jsonMarshal (some C2)⟩)]) ⟨"GET", getBody⟩).2
      = ⟨200, some "application/json", jsonEncode (some C2)⟩ ∧
    jsonUnmarshal (jsonEncode (some C2)) = .ok (some C2) ∧
    serve errText fs [(env1, ⟨"POST", jsonMarshal (some C2)⟩),
        (env2, ⟨"POST", jsonMarshal (some C2)⟩)]
      = (linksHandler errText env1 fs ⟨"POST", jsonMarshal (some C2)⟩).1 := by
  have p1 := fun (f : FS) => handler_post_ok errText env1 f _ (some C1)
    (jsonDecode_jsonMarshal _) hw1
  have p2 := fun (f : FS) => handler_post_ok errText env2 f _ (some C2)
    (jsonDecode_jsonMarshal _) hw2
  have p3 := fun (f : FS) => handler_post_ok errText env1 f _ (some C2)
    (jsonDecode_jsonMarshal _) hw1
  have hg := handler_get_saved errText envGet getBody (some C2) hr
  simp only [serve, p1, p2, p3, hg, jsonUnmarshal_jsonEncode, and_self]

theorem post_replaces_store_witness :
    Env.sound.writeErr = none ∧ Env.sound.readErr = none ∧
    serve (fun _ => []) ⟨some "junk".toList⟩
        [(Env.sound, ⟨"POST", jsonMarshal (some [sampleLink])⟩),
          (Env.sound, ⟨"POST", jsonMarshal (some [Link.zero])⟩)]
      = (linksHandler (fun _ => []) Env.sound ⟨some "junk".toList⟩
          ⟨"POST", jsonMarshal (some [Link.zero])⟩).1 :=
  ⟨rfl, rfl, (post_replaces_store (fun _ => []) Env.sound Env.sound Env.sound
    ⟨some "junk".toList⟩ ⟨none⟩ [sampleLink] [Link.zero] [] rfl rfl rfl).2.2.1⟩

/-- C5: a request whose method is neither GET nor POST is answered 405 with the text
`Method not allowed` (written by `http.Error`, which ends it with a newline), whatever
the operating system would do to a read or a write, and the store is left as it was. -/
theorem method_not_allowed (errText : GoError → List Char) (env : Env) (fs : FS)
    (r : Request) (hget : r.method ≠ "GET") (hpost : r.method ≠ "POST") :
    linksHandler errText env fs r = (fs, httpError "Method not allowed".toList 405) ∧
    (linksHandler errText env fs r).2.status = 405 ∧
    (linksHandler errText env fs r).2.body = "Method not allowed\n".toList ∧
    (linksHandler errText env fs r).1 = fs := by
  rw [handler_other errText env fs r hget hpost]
  exact ⟨rfl, rfl, rfl, rfl⟩

theorem method_not_allowed_witness :
    ("DELETE" : String) ≠ "GET" ∧ ("DELETE" : String) ≠ "POST" ∧
    linksHandler (fun _ => []) ⟨none, none, some 5, some (28, none)⟩ ⟨some "[]".toList⟩
        ⟨"DELETE", "[]".toList⟩
      = (⟨some "[]".toList⟩, httpError "Method not allowed".toList 405) :=
  ⟨by decide, by decide,
    (method_not_allowed (fun _ => []) ⟨none, none, some 5, some (28, none)⟩
      ⟨some "[]".toList⟩ ⟨"DELETE", "[]".toList⟩ (by decide) (by decide)).1⟩

/-- C6: on a fresh store `ensureDataDir` creates the data file with content `[]` and a
GET then answers 200 with the empty JSON array; `loadLinks` on an absent data file gives
the empty non-nil slice and no error, so that a GET answers 200 with `[]` then too. -/
theorem initial_state (errText : GoError → List Char) (envInit envGet : Env)
    (getBody : List Char) (hm : envInit.mkdirErr = none) (hs : envInit.statErr = none)
    (hw : envInit.writeErr = none) (hr : envGet.readErr = none) :
    ensureDataDir envInit ⟨none⟩ = (⟨some "[]".toList⟩, none) ∧
    linksHandler errText envGet (ensureDataDir envInit ⟨none⟩).1 ⟨"GET", getBody⟩
      = (⟨some "[]".toList⟩, ⟨200, some "application/json", "[]\n".toList⟩) ∧
    loadLinks envGet ⟨none⟩ = .ok (some []) ∧
    linksHandler errText envGet ⟨none⟩ ⟨"GET", getBody⟩
      = (⟨none⟩, ⟨200, some "application/json", "[]\n".toList⟩) := by
  have h0 := ensureDataDir_fresh envInit hm hs hw
  refine ⟨h0, ?_, loadLinks_absent envGet hr, ?_⟩
  · rw [h0]
    exact handler_get_saved errText envGet getBody (some []) hr
  · rw [handler_get, loadLinks_absent envGet hr]
    rfl

theorem initial_state_witness :
    Env.sound.mkdirErr = none ∧ Env.sound.statErr = none ∧ Env.sound.writeErr = none ∧
    Env.sound.readErr = none ∧
    ensureDataDir Env.sound ⟨none⟩ = (⟨some "[]".toList⟩, none) :=
  ⟨rfl, rfl, rfl, rfl, (initial_state (fun _ => []) Env.sound Env.sound [] rfl rfl rfl rfl).1⟩

/-- C7: a POST whose body decodes to the collection `C` leaves the store that
`saveLinks` leaves when called with `C`; when `saveLinks` returns no error the response
is 200 with the JSON array encoding of `C` as body, and when it returns an error the
response is 500 with the text of that error, and nothing else, as body. -/
theorem post_outcome (errText : GoError → List Char) (env : Env) (fs : FS)
    (body : List Char) (C : List Link) (hb : jsonDecode body = .ok (some C)) :
    (linksHandler errText env fs ⟨"POST", body⟩).1 = (saveLinks env fs (some C)).1 ∧
    ((saveLinks env fs (some C)).2 = none →
      (linksHandler errText env fs ⟨"POST", body⟩).2 = ⟨200, none, jsonEncode (some C)⟩ ∧
      (linksHandler errText env fs ⟨"POST", body⟩).2.status = 200 ∧
      jsonUnmarshal (linksHandler errText env fs ⟨"POST", body⟩).2.body = .ok (some C)) ∧
    (∀ e, (saveLinks env fs (some C)).2 = some e →
      (linksHandler errText env fs ⟨"POST", body⟩).2 = httpError (errText e) 500 ∧
      (linksHandler errText env fs ⟨"POST", body⟩).2.status = 500 ∧
      (linksHandler errText env fs ⟨"POST", body⟩).2.body = errText e ++ ['\n']) ∧
    ((saveLinks env fs (some C)).2 = none ↔ env.writeErr = none) := by
  rw [handler_post, hb]
  dsimp only
  cases hw : env.writeErr with
  | none =>
    rw [saveLinks_ok env fs (some C) hw]
    refine ⟨rfl, fun _ => ⟨rfl, rfl, jsonUnmarshal_jsonEncode _⟩, ?_, by simp⟩
    intro e he
    cases he
  | some p =>
    obtain ⟨n, left⟩ := p
    rw [saveLinks_fail env fs (some C) n left hw]
    refine ⟨rfl, ?_, ?_, by simp⟩
    · intro h; cases h
    · intro e he
      cases he
      exact ⟨rfl, rfl, rfl⟩

theorem post_outcome_witness :
    jsonDecode "[\x7b\"id\":\"1\",\"name\":\"Docs\"\x7d] ".toList
      = .ok (some [⟨"1".toList, "Docs".toList, [], [], [], []⟩]) ∧
    (linksHandler (fun _ => "disk full".toList) ⟨none, none, none, some (28, some [])⟩
        ⟨some "[]".toList⟩
        ⟨"POST", "[\x7b\"id\":\"1\",\"name\":\"Docs\"\x7d] ".toList⟩).1
      = (saveLinks ⟨none, none, none, some (28, some [])⟩ ⟨some "[]".toList⟩
          (some [⟨"1".toList, "Docs".toList, [], [], [], []⟩])).1 :=
  ⟨rfl,
    (post_outcome (fun _ => "disk full".toList) ⟨none, none, none, some (28, some [])⟩
      ⟨some "[]".toList⟩ "[\x7b\"id\":\"1\",\"name\":\"Docs\"\x7d] ".toList
      [⟨"1".toList, "Docs".toList, [], [], [], []⟩] rfl).1⟩

/-- C8 fails as stated: `saveLinks` takes a `[]Link`, and `linksHandler` passes it the nil
slice when the body of a POST is `null`; `saveLinks` then succeeds and the data file
holds `null`, which is not a JSON array. -/
theorem saveLinks_nil_writes_null :
    jsonDecode "null".toList = .ok none ∧
    saveLinks Env.sound ⟨some "[]".toList⟩ none = (⟨some "null".toList⟩, none) ∧
    ¬ ∃ elems, parseDocument "null".toList = .ok (JSON.arr elems) := by
  refine ⟨rfl, by decide, ?_⟩
  rintro ⟨elems, h⟩
  have h0 : parseDocument "null".toList = .ok JSON.null := rfl
  rw [h0] at h
  cases h

/-- C8, as the code has it: when `saveLinks` is called with a slice and returns no
error, the data file holds the two-space-indented encoding of the slice, and parsing it
as `loadLinks` does gives the slice again.  For a collection `C` (a non-nil slice) that
content is a JSON array with one object for each link of `C`, in order, in which `id`,
`name` and `url` are always present and `color`, `description` and `emoji` are present
exactly when the field is not empty; for the nil slice the content is `null`. -/
theorem saved_file_format (env envLoad : Env) (fs : FS) (v : Option (List Link))
    (hok : (saveLinks env fs v).2 = none) (hr : envLoad.readErr = none) :
    (saveLinks env fs v).1.file = some (indentText v) ∧
    jsonMarshalIndent v = .ok (indentText v) ∧
    jsonUnmarshal (indentText v) = .ok v ∧
    loadLinks envLoad (saveLinks env fs v).1 = .ok v ∧
    (v = none → (saveLinks env fs v).1.file = some "null".toList) ∧
    (∀ C : List Link, v = some C →
      ∃ elems : List JSON,
        parseDocument (indentText v) = .ok (.arr elems) ∧
        elems = C.map Link.object ∧
        List.Forall₂ encodesLink C elems) := by
  have hw := saveLinks_writeErr env fs v hok
  rw [saveLinks_ok env fs v hw]
  refine ⟨rfl, jsonMarshalIndent_eq _, jsonUnmarshal_indentText _, ?_, ?_, ?_⟩
  · rw [loadLinks_file envLoad _ hr]
    exact jsonUnmarshal_indentText _
  · intro hv
    rw [hv]
    rfl
  · intro C hv
    refine ⟨C.map Link.object, ?_, rfl, forall₂_encodesLink C⟩
    rw [hv, ← map_toJSON_eq]
    exact parseDocument_indentText (some C)

set_option maxRecDepth 100000 in
theorem saved_file_format_witness :
    (saveLinks Env.sound ⟨none⟩ (some [sampleLink, Link.zero, fullLink])).2 = none ∧
    Env.sound.readErr = none ∧
    (saveLinks Env.sound ⟨none⟩ (some [sampleLink, Link.zero, fullLink])).1.file
      = some ("[\n  \x7b\n    \"id\": \"1\",\n    \"name\": \"Docs\",\n"
          ++ "    \"url\": \"https://x\",\n    \"description\": \"a\\u003cb\"\n  \x7d,\n"
          ++ "  \x7b\n    \"id\": \"\",\n    \"name\": \"\",\n    \"url\": \"\"\n  \x7d,\n"
          ++ "  \x7b\n    \"id\": \"2\",\n    \"name\": \"Mail\",\n"
          ++ "    \"url\": \"https://m\",\n    \"color\": \"#fff\",\n"
          ++ "    \"description\": \"d\",\n    \"emoji\": \"e\"\n  \x7d\n]").toList :=
  ⟨by decide, rfl,
    (saved_file_format Env.sound Env.sound ⟨none⟩ (some [sampleLink, Link.zero, fullLink])
      (by decide) rfl).1.trans (by decide)⟩

/-- C10: `ensureDataDir` leaves an existing data file as it is, whatever its content and
whatever the operating system does, and so does a GET, which answers 200 or 500. -/
theorem read_only_operations_preserve_file (errText : GoError → List Char) (env : Env)
    (D : List Char) (getBody : List Char) :
    (ensureDataDir env ⟨some D⟩).1 = ⟨some D⟩ ∧
    (linksHandler errText env ⟨some D⟩ ⟨"GET", getBody⟩).1 = ⟨some D⟩ ∧
    ((linksHandler errText env ⟨some D⟩ ⟨"GET", getBody⟩).2.status = 200 ∨
      (linksHandler errText env ⟨some D⟩ ⟨"GET", getBody⟩).2.status = 500) := by
  refine ⟨?_, ?_, ?_⟩
  · unfold ensureDataDir osStat
    cases env.mkdirErr <;> cases env.statErr <;> simp [isNotExist]
  · rw [handler_get]
    cases loadLinks env ⟨some D⟩ <;> rfl
  · rw [handler_get]
    cases loadLinks env ⟨some D⟩
    · exact Or.inr rfl
    · exact Or.inl rfl

end WebLauncher
